import Mathlib

/-!
A verification development for the `serde_bencoded` crate: a shallow
embedding, in Lean, of the bencode serializer (`src/ser.rs`,
`src/ser/only_string_ser.rs`) and deserializer (`src/de.rs`) together with
the error taxonomy (`src/error.rs`), and theorems about the embedding.

Conventions of the embedding:
* Bytes are modelled as `Nat`; byte buffers as `List Nat`.  Byte literals
  are spelled numerically (`105` is `'i'`, `101` is `'e'`, `108` is `'l'`,
  `100` is `'d'`, `58` is `':'`, `48`-`57` are `'0'`-`'9'`, `45` is `'-'`).
* The zero-copy cursor of `Deserializer` is modelled by passing the
  remaining input and returning the rest of it.
* Rust code can end in three ways that we must keep apart: returning
  `Ok`, returning `Err`, or panicking (out-of-bounds slice indexing).
  The outcome type `ROut` has a constructor for each, plus an
  `outOfFuel` constructor used only because the Lean functions carry an
  explicit recursion-depth fuel that the Rust recursion does not need;
  the theorems always supply enough fuel for it to be unreachable.
* The generic serde derive/visitor layer (the "mapping layer", which the
  crate's own documentation treats as an external collaborator) is
  modelled in the standard way: values are described by a `Shape`
  (the target type) and decoding is directed by that shape.  Variant and
  field identifiers are matched by name; the by-integer-index identifier
  fallback of serde derive is not modelled, and unknown struct fields are
  modelled as errors.
* The serializer is modelled with the `sort_dictionary` feature disabled
  (`serialize` below); the feature-enabled buffered-and-sorted dictionary
  writer `StructMapSerializer` is modelled separately
  (`serializeMapSorted` below).
-/

set_option maxHeartbeats 1600000

namespace SerdeBencoded

/-- Decode-side error kinds, mirroring `DeError` in `src/error.rs`.
`SyntaxError` carries the offending byte and the optional expected byte.
In the source `ParseIntegerError` and `Utf8Error` wrap the underlying
`btoi::ParseIntegerError` / `std::str::Utf8Error` payloads; the payloads
carry no information any theorem below depends on, so they are dropped. -/
inductive DeError where
  | Message (s : String)
  | UnexpectedEof
  | SyntaxError (got : Nat) (expected : Option Nat)
  | ParseIntegerError
  | Utf8Error
  | ExpectedString
  | ExpectedDictionary
  | ExpectedEndOfDictionary
  | ExpectedUnitStructName
  | ExpectedInteger
  | ExpectedCharString
deriving DecidableEq, Repr

/-- Encode-side error kinds, mirroring `SerError` in `src/error.rs`.
`NoneNotSupported` is referenced by `serialize_none` and the tests in
`src/ser.rs` although `src/error.rs` as given omits the constructor; it is
included here so that `serialize_none` can be modelled. -/
inductive SerError where
  | Message (s : String)
  | FloatingPointNotSupported
  | Io (s : String)
  | DictionaryKeyMustBeString
  | FromUtf8Error
  | NoneNotSupported
deriving DecidableEq, Repr

/-- Outcome of running a piece of Rust decode code: `ok`, an `Err` return,
a panic (out-of-bounds slice indexing aborts instead of returning), or
exhaustion of the explicit recursion fuel of the Lean model. -/
inductive ROut (α : Type) where
  | ok (a : α)
  | err (e : DeError)
  | panicked
  | outOfFuel
deriving DecidableEq, Repr

namespace ROut

def bind : ROut α → (α → ROut β) → ROut β
  | .ok a, f => f a
  | .err e, _ => .err e
  | .panicked, _ => .panicked
  | .outOfFuel, _ => .outOfFuel

instance : Monad ROut where
  pure := .ok
  bind := bind

@[simp] theorem bind_ok (a : α) (f : α → ROut β) : bind (.ok a) f = f a := rfl
@[simp] theorem bind_err (e : DeError) (f : α → ROut β) : bind (.err e) f = .err e := rfl
@[simp] theorem bind_panicked (f : α → ROut β) : bind (.panicked) f = .panicked := rfl
@[simp] theorem bind_outOfFuel (f : α → ROut β) : bind (.outOfFuel) f = .outOfFuel := rfl

@[simp] theorem bind_eq (x : ROut α) (f : α → ROut β) : x >>= f = bind x f := rfl

@[simp] theorem pure_eq (a : α) : (pure a : ROut α) = .ok a := rfl

end ROut

/-! ### The byte cursor (`impl Deserializer` in `src/de.rs`) -/

/-- `peek_next`: first remaining byte, or `UnexpectedEof`. -/
def peek_next (input : List Nat) : ROut Nat :=
  match input with
  | [] => .err .UnexpectedEof
  | b :: _ => .ok b

/-- `peek_second`: second remaining byte, or `UnexpectedEof`. -/
def peek_second (input : List Nat) : ROut Nat :=
  match input with
  | _ :: b :: _ => .ok b
  | _ => .err .UnexpectedEof

/-- `advance`: the source stores the `peek_next` result and then
unconditionally re-slices `&self.input[1..]`, so on empty input it panics
on the out-of-range slice before the stored `UnexpectedEof` is returned. -/
def advance (input : List Nat) : ROut (Nat × List Nat) :=
  match input with
  | [] => .panicked
  | b :: rest => .ok (b, rest)

/-- `advance_by`: `&self.input[0..len]` panics when fewer than `len` bytes
remain; otherwise the borrowed slice and the rest are returned.  Note the
source never returns `Err` from this function. -/
def advance_by (len : Nat) (input : List Nat) : ROut (List Nat × List Nat) :=
  if len ≤ input.length then .ok (input.take len, input.drop len)
  else .panicked

/-- `slice_while`: the prefix strictly before the first occurrence of
`endByte`, or `UnexpectedEof` when `endByte` does not occur. -/
def slice_while (input : List Nat) (endByte : Nat) : ROut (List Nat) :=
  match input with
  | [] => .err .UnexpectedEof
  | b :: rest =>
    if b = endByte then .ok []
    else ROut.bind (slice_while rest endByte) (fun p => .ok (b :: p))

/-- `advance_to`: `slice_while`, then drop the prefix and the delimiter. -/
def advance_to (input : List Nat) (byte : Nat) : ROut (List Nat × List Nat) :=
  ROut.bind (slice_while input byte) (fun p => .ok (p, input.drop (p.length + 1)))

/-- `advance_to_e`: `advance_to` with the `'e'` delimiter. -/
def advance_to_e (input : List Nat) : ROut (List Nat × List Nat) :=
  advance_to input 101

/-! ### Decimal formatting (`itoa`) and parsing (`btoi`) -/

/-- Decimal ASCII digits of `n`, most significant first, as written by
`itoa::Buffer::format` for unsigned values. -/
def natDigits (n : Nat) : List Nat :=
  if n < 10 then [48 + n]
  else natDigits (n / 10) ++ [48 + n % 10]
decreasing_by exact Nat.div_lt_self (by omega) (by omega)

/-- Decimal ASCII of a signed value: optional `'-'` then the magnitude,
as written by `itoa::Buffer::format` for `i64`. -/
def intDigits (i : Int) : List Nat :=
  if i < 0 then 45 :: natDigits i.natAbs else natDigits i.natAbs

/-- Digit-accumulation loop shared by the `btoi` models: consumes decimal
digits left to right, `none` on the first non-digit byte. -/
def parseDigitsAcc (acc : Nat) : List Nat → Option Nat
  | [] => some acc
  | d :: ds =>
    if 48 ≤ d ∧ d ≤ 57 then parseDigitsAcc (acc * 10 + (d - 48)) ds
    else none

/-- All-digit parse of a nonempty byte run (`btoi` rejects empty input). -/
def parseDigits (bs : List Nat) : Option Nat :=
  match bs with
  | [] => none
  | _ => parseDigitsAcc 0 bs

/-- `btoi::btoi::<u64>`: optional `'+'`; a `'-'` sign is only accepted when
the accumulated magnitude is zero (`checked_sub` underflows otherwise);
the value must fit in 64 bits.  `btoi` detects overflow during
accumulation with `checked_mul`/`checked_add`, which for monotone decimal
accumulation is equivalent to the final-value bound checked here. -/
def parse_u64 (bs : List Nat) : ROut Nat :=
  match bs with
  | [] => .err .ParseIntegerError
  | b :: rest =>
    if b = 43 then
      match parseDigits rest with
      | some v => if v < 2 ^ 64 then .ok v else .err .ParseIntegerError
      | none => .err .ParseIntegerError
    else if b = 45 then
      match parseDigits rest with
      | some v => if v = 0 then .ok 0 else .err .ParseIntegerError
      | none => .err .ParseIntegerError
    else
      match parseDigits (b :: rest) with
      | some v => if v < 2 ^ 64 then .ok v else .err .ParseIntegerError
      | none => .err .ParseIntegerError

/-- `btoi::btoi::<i64>`: optional sign, decimal magnitude, `i64` range. -/
def parse_i64 (bs : List Nat) : ROut Int :=
  match bs with
  | [] => .err .ParseIntegerError
  | b :: rest =>
    if b = 43 then
      match parseDigits rest with
      | some v => if v < 2 ^ 63 then .ok (v : Int) else .err .ParseIntegerError
      | none => .err .ParseIntegerError
    else if b = 45 then
      match parseDigits rest with
      | some v => if v ≤ 2 ^ 63 then .ok (-(v : Int)) else .err .ParseIntegerError
      | none => .err .ParseIntegerError
    else
      match parseDigits (b :: rest) with
      | some v => if v < 2 ^ 63 then .ok (v : Int) else .err .ParseIntegerError
      | none => .err .ParseIntegerError

/-- `btoi::btoi::<usize>` on a 64-bit target coincides with the `u64` parse. -/
def parse_usize (bs : List Nat) : ROut Nat :=
  parse_u64 bs

/-- `parse_byte_string`: decimal length up to `':'`, then exactly that many
bytes (`advance_by`, which panics when the buffer is shorter). -/
def parse_byte_string (input : List Nat) : ROut (List Nat × List Nat) :=
  ROut.bind (advance_to input 58) (fun nb =>
    ROut.bind (parse_usize nb.1) (fun n =>
      advance_by n nb.2))

/-! ### UTF-8 (`std::str::from_utf8`, `char::encode_utf8`)

These model the Rust standard library, which the decoder calls for `str`,
`String`, `char` and bare-string enum-variant names. -/

/-- A unicode scalar value: what a Rust `char` can hold. -/
def validScalar (c : Nat) : Bool :=
  decide (c < 0xD800) || (decide (0xE000 ≤ c) && decide (c < 0x110000))

/-- `char::encode_utf8`: the 1-4 byte UTF-8 encoding of a scalar value. -/
def utf8EncodeChar (c : Nat) : List Nat :=
  if c < 0x80 then [c]
  else if c < 0x800 then [0xC0 + c / 64, 0x80 + c % 64]
  else if c < 0x10000 then
    [0xE0 + c / 4096, 0x80 + c / 64 % 64, 0x80 + c % 64]
  else
    [0xF0 + c / 262144, 0x80 + c / 4096 % 64, 0x80 + c / 64 % 64, 0x80 + c % 64]

/-- A UTF-8 continuation byte. -/
def utf8Cont (b : Nat) : Bool :=
  decide (0x80 ≤ b) && decide (b < 0xC0)

/-- Validity of the tail of a three-byte UTF-8 sequence: continuation
bytes, no overlong form (`0xE0` requires `b1 ≥ 0xA0`), no surrogate
(`0xED` requires `b1 < 0xA0`). -/
def utf8Check3 (b0 b1 b2 : Nat) : Bool :=
  utf8Cont b1 && utf8Cont b2
    && (!(b0 == 0xE0) || decide (0xA0 ≤ b1))
    && (!(b0 == 0xED) || decide (b1 < 0xA0))

/-- Validity of the tail of a four-byte UTF-8 sequence: continuation
bytes, no overlong form (`0xF0` requires `b1 ≥ 0x90`), nothing above
`0x10FFFF` (`0xF4` requires `b1 < 0x90`). -/
def utf8Check4 (b0 b1 b2 b3 : Nat) : Bool :=
  utf8Cont b1 && utf8Cont b2 && utf8Cont b3
    && (!(b0 == 0xF0) || decide (0x90 ≤ b1))
    && (!(b0 == 0xF4) || decide (b1 < 0x90))

mutual
/-- Strict UTF-8 decoding of a whole buffer into its scalar values:
rejects stray continuations, overlong forms, surrogates and values above
`0x10FFFF`, exactly as `std::str::from_utf8` does; `none` on invalid. -/
def utf8Chars : List Nat → Option (List Nat)
  | [] => some []
  | b0 :: rest =>
    if b0 < 0x80 then (utf8Chars rest).map (fun cs => b0 :: cs)
    else if b0 < 0xC2 then none
    else if b0 < 0xE0 then utf8Tail2 b0 rest
    else if b0 < 0xF0 then utf8Tail3 b0 rest
    else if b0 < 0xF5 then utf8Tail4 b0 rest
    else none

/-- Continuation of a two-byte UTF-8 sequence headed by `b0`. -/
def utf8Tail2 (b0 : Nat) : List Nat → Option (List Nat)
  | b1 :: rest1 =>
    if utf8Cont b1 then
      (utf8Chars rest1).map (fun cs => ((b0 - 0xC0) * 64 + (b1 - 0x80)) :: cs)
    else none
  | _ => none

/-- Continuation of a three-byte UTF-8 sequence headed by `b0`. -/
def utf8Tail3 (b0 : Nat) : List Nat → Option (List Nat)
  | b1 :: b2 :: rest2 =>
    if utf8Check3 b0 b1 b2 then
      (utf8Chars rest2).map (fun cs =>
        ((b0 - 0xE0) * 4096 + (b1 - 0x80) * 64 + (b2 - 0x80)) :: cs)
    else none
  | _ => none

/-- Continuation of a four-byte UTF-8 sequence headed by `b0`. -/
def utf8Tail4 (b0 : Nat) : List Nat → Option (List Nat)
  | b1 :: b2 :: b3 :: rest3 =>
    if utf8Check4 b0 b1 b2 b3 then
      (utf8Chars rest3).map (fun cs =>
        ((b0 - 0xF0) * 262144 + (b1 - 0x80) * 4096 + (b2 - 0x80) * 64 + (b3 - 0x80)) :: cs)
    else none
  | _ => none
end

/-- `std::str::from_utf8(..).is_ok()`. -/
def isValidUtf8 (bs : List Nat) : Bool :=
  (utf8Chars bs).isSome

/-! ### Target shapes and decoded values

`Shape` is the mapping-layer description of the Rust target type that
directs shape-directed decoding; `VShape` describes one enum variant.
`Value` is the universe of decoded/encoded values; `VPayload` is the
payload carried by an enum value. -/

mutual
inductive Shape where
  | sI64
  | sU64
  | sBool
  | sUnit
  | sChar
  | sText
  | sBytes
  | sF32
  | sF64
  | sOpt (s : Shape)
  | sList (s : Shape)
  | sTuple (ss : List Shape)
  | sDict (s : Shape)
  | sStruct (fields : List (List Nat × Shape))
  | sEnum (variants : List (List Nat × VShape))
inductive VShape where
  | vsUnit
  | vsNewtype (s : Shape)
  | vsTuple (ss : List Shape)
  | vsStruct (fields : List (List Nat × Shape))
end

mutual
inductive Value where
  | vI64 (i : Int)
  | vU64 (n : Nat)
  | vBool (b : Bool)
  | vUnit
  | vChar (c : Nat)
  | vText (s : List Nat)
  | vBytes (s : List Nat)
  | vF32
  | vF64
  | vNone
  | vOptSome (v : Value)
  | vList (xs : List Value)
  | vTuple (xs : List Value)
  | vDict (pairs : List (List Nat × Value))
  | vStruct (fields : List (List Nat × Value))
  | vEnum (name : List Nat) (payload : VPayload)
inductive VPayload where
  | pUnit
  | pNewtype (v : Value)
  | pTuple (xs : List Value)
  | pStruct (fields : List (List Nat × Value))
end

/-! ### The encode engine (`src/ser.rs`, `sort_dictionary` disabled) -/

/-- `serialize_bytes`: decimal length, `':'`, the raw bytes. -/
def encStr (s : List Nat) : List Nat :=
  natDigits s.length ++ 58 :: s

mutual
/-- The encode engine of `src/ser.rs` (writer = `Vec<u8>`, so I/O never
fails), merged over all `serialize_*` methods and directed by the value:
integers via `serialize_i64`/`serialize_u64` (`serialize_bool` casts to
`u64`, `serialize_char` encodes UTF-8 then defers to `serialize_bytes`,
`serialize_str` defers to `serialize_bytes`), `serialize_unit` writes
`"0:"`, `serialize_none` errors, `serialize_some` is transparent,
floats error, sequences/tuples are `l..e`, maps/structs are `d..e` with
keys through the string-only key path, `serialize_unit_variant` writes
the bare variant name, `serialize_newtype_variant` a one-entry
dictionary, `serialize_tuple_variant` only `serialize_seq` (no variant
framing: see the round-trip analysis), `serialize_struct_variant` a
dictionary of fields wrapped in a one-entry dictionary. -/
def serialize : Value → Except SerError (List Nat)
  | .vI64 i => .ok (105 :: intDigits i ++ [101])
  | .vU64 n => .ok (105 :: natDigits n ++ [101])
  | .vBool b => .ok (105 :: natDigits (if b then 1 else 0) ++ [101])
  | .vUnit => .ok [48, 58]
  | .vChar c => .ok (encStr (utf8EncodeChar c))
  | .vText s => .ok (encStr s)
  | .vBytes s => .ok (encStr s)
  | .vF32 => .error .FloatingPointNotSupported
  | .vF64 => .error .FloatingPointNotSupported
  | .vNone => .error .NoneNotSupported
  | .vOptSome v => serialize v
  | .vList xs => do
    let b ← serializeElems xs
    .ok (108 :: b ++ [101])
  | .vTuple xs => do
    let b ← serializeElems xs
    .ok (108 :: b ++ [101])
  | .vDict ps => do
    let b ← serializePairs ps
    .ok (100 :: b ++ [101])
  | .vStruct ps => do
    let b ← serializePairs ps
    .ok (100 :: b ++ [101])
  | .vEnum name .pUnit => .ok (encStr name)
  | .vEnum name (.pNewtype v) => do
    let b ← serialize v
    .ok (100 :: (encStr name ++ b ++ [101]))
  | .vEnum _ (.pTuple xs) => do
    let b ← serializeElems xs
    .ok (108 :: b ++ [101])
  | .vEnum name (.pStruct ps) => do
    let b ← serializePairs ps
    .ok (100 :: (encStr name ++ (100 :: b ++ [101]) ++ [101]))

/-- Elements of a sequence/tuple, in order (`serialize_element`). -/
def serializeElems : List Value → Except SerError (List Nat)
  | [] => .ok []
  | x :: xs => do
    let b ← serialize x
    let r ← serializeElems xs
    .ok (b ++ r)

/-- Key/value entries of a map/struct: each key goes through the
string-only key serializer (so a raw string key becomes a byte string),
each value through the main engine, written in the order supplied. -/
def serializePairs : List (List Nat × Value) → Except SerError (List Nat)
  | [] => .ok []
  | (k, v) :: ps => do
    let b ← serialize v
    let r ← serializePairs ps
    .ok (encStr k ++ b ++ r)
end

mutual
/-- The byte stream `serialize` produces when it succeeds (`vNone` and the
float values, on which `serialize` errors, are mapped to `[]`; the bridge
lemma `serialize_eq_wire` below connects the two). -/
def wire : Value → List Nat
  | .vI64 i => 105 :: intDigits i ++ [101]
  | .vU64 n => 105 :: natDigits n ++ [101]
  | .vBool b => 105 :: natDigits (if b then 1 else 0) ++ [101]
  | .vUnit => [48, 58]
  | .vChar c => encStr (utf8EncodeChar c)
  | .vText s => encStr s
  | .vBytes s => encStr s
  | .vF32 => []
  | .vF64 => []
  | .vNone => []
  | .vOptSome v => wire v
  | .vList xs => 108 :: wireElems xs ++ [101]
  | .vTuple xs => 108 :: wireElems xs ++ [101]
  | .vDict ps => 100 :: wirePairs ps ++ [101]
  | .vStruct ps => 100 :: wirePairs ps ++ [101]
  | .vEnum name .pUnit => encStr name
  | .vEnum name (.pNewtype v) => 100 :: (encStr name ++ wire v ++ [101])
  | .vEnum _ (.pTuple xs) => 108 :: wireElems xs ++ [101]
  | .vEnum name (.pStruct ps) => 100 :: (encStr name ++ (100 :: wirePairs ps ++ [101]) ++ [101])

def wireElems : List Value → List Nat
  | [] => []
  | x :: xs => wire x ++ wireElems xs

def wirePairs : List (List Nat × Value) → List Nat
  | [] => []
  | (k, v) :: ps => encStr k ++ wire v ++ wirePairs ps
end

/-! ### The decode dispatch engine (`src/de.rs`, `Simple` behaviour)

The functions carry an explicit fuel bounding recursion depth (the Rust
recursion is bounded only by the call stack); every recursive call
decrements it.  `deserializeVariantInner` is the `visit_enum` part of
`deserialize_enum` (variant identifier plus `VariantAccess`); the loop
functions are the `SeqAccess`/`MapAccess` drains driven by the derived
visitors of the mapping layer. -/

mutual
/-- Shape-directed decoding, one Rust `deserialize_*` method per shape:
see `src/de.rs`.  Fixed-width integers narrower than 64 bits forward to
the same integer readers and are not separately modelled. -/
def deserialize : Nat → Shape → List Nat → ROut (Value × List Nat)
  | 0, _, _ => .outOfFuel
  | _ + 1, .sI64, input => do
    let (marker, rest) ← advance input
    if marker = 105 then do
      let (digits, rest2) ← advance_to_e rest
      let v ← parse_i64 digits
      .ok (.vI64 v, rest2)
    else .err (.SyntaxError marker (some 105))
  | _ + 1, .sU64, input => do
    let (marker, rest) ← advance input
    if marker = 105 then do
      let (digits, rest2) ← advance_to_e rest
      let v ← parse_u64 digits
      .ok (.vU64 v, rest2)
    else .err (.SyntaxError marker (some 105))
  | _ + 1, .sBool, input => do
    let (marker, rest) ← advance input
    if marker = 105 then do
      let (b, rest2) ← advance_to_e rest
      match b with
      | [d] =>
        if d = 48 ∨ d = 49 then .ok (.vBool (d == 49), rest2)
        else .err (.Message "expected integer between `0` to `1`")
      | _ => .err (.Message "expected integer between `0` to `1`")
    else .err .ExpectedInteger
  | _ + 1, .sUnit, input => do
    let (_, rest) ← advance_by 2 input
    .ok (.vUnit, rest)
  | _ + 1, .sChar, input => do
    let (s, rest) ← parse_byte_string input
    if s.length > 4 then .err .ExpectedCharString
    else
      match utf8Chars s with
      | none => .err .Utf8Error
      | some [c] => .ok (.vChar c, rest)
      | some _ => .err .ExpectedCharString
  | _ + 1, .sText, input => do
    let (bs, rest) ← parse_byte_string input
    if isValidUtf8 bs then .ok (.vText bs, rest) else .err .Utf8Error
  | _ + 1, .sBytes, input => do
    let (bs, rest) ← parse_byte_string input
    .ok (.vBytes bs, rest)
  | _ + 1, .sF32, _ => .err (.Message "`f32` is not supported")
  | _ + 1, .sF64, _ => .err (.Message "`f64` is not supported")
  | fuel + 1, .sOpt s, input =>
    match input with
    | [] => .ok (.vNone, input)
    | _ => do
      let (v, rest) ← deserialize fuel s input
      .ok (.vOptSome v, rest)
  | fuel + 1, .sList s, input => do
    let (b, rest) ← advance input
    if b = 108 then do
      let (xs, rest2) ← deserializeListElems fuel s rest
      .ok (.vList xs, rest2)
    else .err (.SyntaxError b (some 108))
  | fuel + 1, .sTuple ss, input => do
    let (b, rest) ← advance input
    if b = 108 then do
      let (xs, rest2) ← deserializeTupleElems fuel ss rest
      let (_, rest3) ← advance rest2
      .ok (.vTuple xs, rest3)
    else .err (.SyntaxError b (some 108))
  | fuel + 1, .sDict s, input => do
    let (b, rest) ← advance input
    if b = 100 then do
      let (ps, rest2) ← deserializeDictPairs fuel s rest
      .ok (.vDict ps, rest2)
    else .err (.SyntaxError b (some 100))
  | fuel + 1, .sStruct fields, input => do
    let (b, rest) ← advance input
    if b = 100 then do
      let (ps, rest2) ← deserializeStructFields fuel fields rest
      .ok (.vStruct ps, rest2)
    else .err (.SyntaxError b (some 100))
  | fuel + 1, .sEnum variants, input => do
    let b ← peek_next input
    if b = 100 then do
      let (_, rest) ← advance input
      let (v, rest1) ← deserializeVariantInner fuel variants rest
      let (c, rest2) ← advance rest1
      if c = 101 then .ok (v, rest2) else .err .ExpectedEndOfDictionary
    else if 48 ≤ b ∧ b ≤ 57 then do
      let (nameBytes, rest) ← parse_byte_string input
      if isValidUtf8 nameBytes then
        match variants.lookup nameBytes with
        | some .vsUnit => .ok (.vEnum nameBytes .pUnit, rest)
        | some _ => .err (.Message "invalid type: unit variant")
        | none => .err (.Message "unknown variant")
      else .err .Utf8Error
    else .err .ExpectedDictionary

/-- `visitor.visit_enum(&mut *self)` inside the `'d'` arm of
`deserialize_enum`: the variant identifier is decoded through
`deserialize_any` (a byte string when the next byte is a digit; the
serde-derive integer-index identifier fallback is not modelled), then the
matched variant drives `VariantAccess`: `unit_variant` is
`Err(ExpectedString)`, `newtype_variant_seed` decodes the payload,
`tuple_variant` goes through `deserialize_seq`, `struct_variant` through
`deserialize_map`. -/
def deserializeVariantInner :
    Nat → List (List Nat × VShape) → List Nat → ROut (Value × List Nat)
  | 0, _, _ => .outOfFuel
  | fuel + 1, variants, input => do
    let b ← peek_next input
    if 48 ≤ b ∧ b ≤ 57 then do
      let (nameBytes, rest) ← parse_byte_string input
      match variants.lookup nameBytes with
      | none => .err (.Message "unknown variant")
      | some .vsUnit => .err .ExpectedString
      | some (.vsNewtype s) => do
        let (v, rest2) ← deserialize fuel s rest
        .ok (.vEnum nameBytes (.pNewtype v), rest2)
      | some (.vsTuple ss) => do
        let (m, rest2) ← advance rest
        if m = 108 then do
          let (xs, rest3) ← deserializeTupleElems fuel ss rest2
          .ok (.vEnum nameBytes (.pTuple xs), rest3)
        else .err (.SyntaxError m (some 108))
      | some (.vsStruct fs) => do
        let (m, rest2) ← advance rest
        if m = 100 then do
          let (ps, rest3) ← deserializeStructFields fuel fs rest2
          .ok (.vEnum nameBytes (.pStruct ps), rest3)
        else .err (.SyntaxError m (some 100))
    else .err (.Message "invalid type for identifier")

/-- The `SeqAccess` drain of a growable sequence: the derived visitor asks
for elements until `next_element_seed` peeks the terminating `'e'`. -/
def deserializeListElems : Nat → Shape → List Nat → ROut (List Value × List Nat)
  | 0, _, _ => .outOfFuel
  | fuel + 1, s, input => do
    let b ← peek_next input
    if b = 101 then do
      let (_, rest) ← advance input
      .ok ([], rest)
    else do
      let (x, rest) ← deserialize fuel s input
      let (xs, rest2) ← deserializeListElems fuel s rest
      .ok (x :: xs, rest2)

/-- The `SeqAccess` use of a fixed-arity tuple/tuple-variant visitor: it
asks for exactly one element per component and stops, so the terminating
`'e'` of the list is left unconsumed; a premature `'e'` surfaces as the
derived visitor's invalid-length error. -/
def deserializeTupleElems :
    Nat → List Shape → List Nat → ROut (List Value × List Nat)
  | 0, _, _ => .outOfFuel
  | _ + 1, [], input => .ok ([], input)
  | fuel + 1, s :: ss, input => do
    let b ← peek_next input
    if b = 101 then .err (.Message "invalid length")
    else do
      let (x, rest) ← deserialize fuel s input
      let (xs, rest2) ← deserializeTupleElems fuel ss rest
      .ok (x :: xs, rest2)

/-- The `MapAccess` drain for a map target (`HashMap<String, V>`): keys
are decoded through `deserialize_str` (byte string plus UTF-8 check),
values by the value shape, until `next_key_seed` peeks `'e'`. -/
def deserializeDictPairs :
    Nat → Shape → List Nat → ROut (List (List Nat × Value) × List Nat)
  | 0, _, _ => .outOfFuel
  | fuel + 1, s, input => do
    let b ← peek_next input
    if b = 101 then do
      let (_, rest) ← advance input
      .ok ([], rest)
    else do
      let (kb, rest) ← parse_byte_string input
      if isValidUtf8 kb then do
        let (v, rest2) ← deserialize fuel s rest
        let (ps, rest3) ← deserializeDictPairs fuel s rest2
        .ok ((kb, v) :: ps, rest3)
      else .err .Utf8Error

/-- The `MapAccess` drain for a struct target: field identifiers are
decoded through `deserialize_any` (a byte string when the next byte is a
digit) and matched against the field list; unknown fields are modelled as
errors (the mapping layer's ignore-unknown fallback is not modelled). -/
def deserializeStructFields :
    Nat → List (List Nat × Shape) → List Nat → ROut (List (List Nat × Value) × List Nat)
  | 0, _, _ => .outOfFuel
  | fuel + 1, fields, input => do
    let b ← peek_next input
    if b = 101 then do
      let (_, rest) ← advance input
      .ok ([], rest)
    else if 48 ≤ b ∧ b ≤ 57 then do
      let (kb, rest) ← parse_byte_string input
      match fields.lookup kb with
      | some s => do
        let (v, rest2) ← deserialize fuel s rest
        let (ps, rest3) ← deserializeStructFields fuel fields rest2
        .ok ((kb, v) :: ps, rest3)
      | none => .err (.Message "unknown field")
    else .err (.Message "invalid type for identifier")
end

/-- `_from_slice` (`src/de.rs`): run the shape-directed decode, then
require the entire input to have been consumed; a leftover byte is a
syntax error naming that byte. -/
def from_slice (fuel : Nat) (s : Shape) (input : List Nat) : ROut Value :=
  match deserialize fuel s input with
  | .ok (t, rest) =>
    match rest with
    | [] => .ok t
    | b :: _ => .err (.SyntaxError b none)
  | .err e => .err e
  | .panicked => .panicked
  | .outOfFuel => .outOfFuel

/-! ### Well-typedness and fuel accounting -/

mutual
/-- `good s v`: `v` is a value of target shape `s` that the claims'
round-trip property ranges over: integers in the range of their Rust
type, `char`s that are unicode scalars, strings that are valid UTF-8,
map keys valid UTF-8, enum payloads matching the variant named by the
value (looked up by name), no absent optionals and no floats (on which
encoding errors), and no tuple variants (whose encoding drops the
variant framing and cannot be decoded back: see the round-trip claim).
Byte strings (and keys and variant names) additionally carry the bound
`length < 2 ^ 64`, which every Rust slice satisfies trivially and which
the `usize` length parse on the decode side re-checks. -/
def goodVal : Shape → Value → Bool
  | .sI64, .vI64 i => decide (-(2 ^ 63 : Int) ≤ i) && decide (i < 2 ^ 63)
  | .sU64, .vU64 n => decide (n < 2 ^ 64)
  | .sBool, .vBool _ => true
  | .sUnit, .vUnit => true
  | .sChar, .vChar c => validScalar c
  | .sText, .vText s => isValidUtf8 s && decide (s.length < 2 ^ 64)
  | .sBytes, .vBytes s => decide (s.length < 2 ^ 64)
  | .sOpt s, .vOptSome v => goodVal s v
  | .sList s, .vList xs => goodElems s xs
  | .sTuple ss, .vTuple xs => goodTuple ss xs
  | .sDict s, .vDict ps => goodDict s ps
  | .sStruct fs, .vStruct ps => goodFields fs ps
  | .sEnum vs, .vEnum name p => goodVariant vs name p
  | _, _ => false

def goodElems : Shape → List Value → Bool
  | _, [] => true
  | s, x :: xs => goodVal s x && goodElems s xs

def goodTuple : List Shape → List Value → Bool
  | [], [] => true
  | s :: ss, x :: xs => goodVal s x && goodTuple ss xs
  | _, _ => false

def goodDict : Shape → List (List Nat × Value) → Bool
  | _, [] => true
  | s, (k, v) :: ps =>
    isValidUtf8 k && decide (k.length < 2 ^ 64) && goodVal s v && goodDict s ps

def goodFields : List (List Nat × Shape) → List (List Nat × Value) → Bool
  | _, [] => true
  | fs, (k, v) :: ps =>
    decide (k.length < 2 ^ 64) &&
    (match fs.lookup k with
     | some s => goodVal s v
     | none => false) && goodFields fs ps

def goodVariant : List (List Nat × VShape) → List Nat → VPayload → Bool
  | vs, name, .pUnit =>
    (match vs.lookup name with
     | some .vsUnit => isValidUtf8 name && decide (name.length < 2 ^ 64)
     | _ => false)
  | vs, name, .pNewtype v =>
    (match vs.lookup name with
     | some (.vsNewtype s) => decide (name.length < 2 ^ 64) && goodVal s v
     | _ => false)
  | _, _, .pTuple _ => false
  | vs, name, .pStruct ps =>
    (match vs.lookup name with
     | some (.vsStruct fs) => decide (name.length < 2 ^ 64) && goodFields fs ps
     | _ => false)
end

mutual
/-- Recursion fuel sufficient to decode the encoding of a value. -/
def cost : Value → Nat
  | .vOptSome v => 1 + cost v
  | .vList xs => 1 + costElems xs
  | .vTuple xs => 1 + costElems xs
  | .vDict ps => 1 + costPairs ps
  | .vStruct ps => 1 + costPairs ps
  | .vEnum _ p => costPayload p
  | _ => 1

def costPayload : VPayload → Nat
  | .pUnit => 1
  | .pNewtype v => 2 + cost v
  | .pTuple xs => 2 + costElems xs
  | .pStruct ps => 2 + costPairs ps

def costElems : List Value → Nat
  | [] => 1
  | x :: xs => 1 + cost x + costElems xs

def costPairs : List (List Nat × Value) → Nat
  | [] => 1
  | (_, v) :: ps => 1 + cost v + costPairs ps
end

/-! ### The string-only key serializer (`src/ser/only_string_ser.rs`) -/

/-- One call into a `serde::Serializer`, used to enumerate the shapes a
map key can try to serialize as.  Compound shapes carry no payload
because `OnlyStringSerializer` rejects them before looking at any
contents. -/
inductive KeyCall where
  | kBool (b : Bool)
  | kI8 (v : Int)
  | kI16 (v : Int)
  | kI32 (v : Int)
  | kI64 (v : Int)
  | kU8 (v : Nat)
  | kU16 (v : Nat)
  | kU32 (v : Nat)
  | kU64 (v : Nat)
  | kF32
  | kF64
  | kChar (c : Nat)
  | kStr (s : List Nat)
  | kBytes (b : List Nat)
  | kNone
  | kSome
  | kUnit
  | kUnitStruct (name : List Nat)
  | kUnitVariant (variant : List Nat)
  | kNewtypeStruct
  | kNewtypeVariant
  | kSeq
  | kTuple
  | kTupleStruct
  | kTupleVariant
  | kMap
  | kStruct
  | kStructVariant
deriving DecidableEq, Repr

/-- `OnlyStringSerializer`: every `serialize_*` method except
`serialize_str` returns `Err(DictionaryKeyMustBeString)`; in particular
`serialize_bytes` also rejects.  `serialize_str` defers to the parent
serializer's `serialize_str`, which writes a byte string.  Map keys are
routed through this serializer by `SerializeMap::serialize_key` in
`src/ser.rs` (both the plain and the buffered `sort_dictionary` path). -/
def only_string_serialize : KeyCall → Except SerError (List Nat)
  | .kStr s => .ok (encStr s)
  | _ => .error .DictionaryKeyMustBeString

/-! ### The buffered sorting dictionary serializer
(`StructMapSerializer` in `src/ser.rs`, feature `sort_dictionary`) -/

/-- The comparator key of a buffered encoded dictionary key: skip to just
after the first `':'` (the bencode length header).  The source computes
`position(|x| *x == b':').unwrap() + 1` and slices from there; the
`unwrap` cannot fail because every buffered key was produced by the
string-only key serializer and therefore contains `':'` (on a key
without `':'` this model returns `[]` where the source would panic). -/
def keyTail (k : List Nat) : List Nat :=
  (k.dropWhile (fun x => x != 58)).drop 1

/-- Lexicographic byte-slice comparison, `a ≤ b`, as `<[u8] as Ord>::cmp`
orders raw byte strings (a strict prefix sorts first). -/
def byteLe : List Nat → List Nat → Bool
  | [], _ => true
  | _ :: _, [] => false
  | a :: l₁, b :: l₂ =>
    if a < b then true
    else if b < a then false
    else byteLe l₁ l₂

/-- The ordering `sort_by` is given in `sort_and_write_to_parent`:
compare the raw key bytes behind the length header. -/
def pairLe (x y : List Nat × List Nat) : Prop :=
  byteLe (keyTail x.1) (keyTail y.1) = true

instance : DecidableRel pairLe := fun x y =>
  Bool.decEq (byteLe (keyTail x.1) (keyTail y.1)) true

/-- `sort_and_write_to_parent`: stable-sort the buffered (key, value)
byte pairs by `pairLe` (the source uses the standard library's stable
`sort_by`; a stable sort is modelled by insertion sort, which agrees with
it on every input without comparator ties), then write each key and value
in order, then the closing `'e'`. -/
def sort_and_write_to_parent (pairs : List (List Nat × List Nat)) : List Nat :=
  ((List.insertionSort pairLe pairs).map (fun kv => kv.1 ++ kv.2)).flatten ++ [101]

/-- The buffering phase of `StructMapSerializer`: each key through the
string-only key serializer into its own buffer, each value through the
main engine into its own buffer, in call order. -/
def encodeBufs :
    List (List Nat × Value) → Except SerError (List (List Nat × List Nat))
  | [] => .ok []
  | (k, v) :: ps => do
    let bv ← serialize v
    let r ← encodeBufs ps
    .ok ((encStr k, bv) :: r)

/-- A whole dictionary level with the `sort_dictionary` feature enabled:
`serialize_map` writes `'d'` and buffers all pairs, `end` sorts and
flushes them (`sort_and_write_to_parent`). -/
def serializeMapSorted (pairs : List (List Nat × Value)) : Except SerError (List Nat) := do
  let bufs ← encodeBufs pairs
  .ok (100 :: sort_and_write_to_parent bufs)

/-! ## Lemmas: decimal digits -/

theorem natDigits_mem_digit :
    ∀ n, ∀ d ∈ natDigits n, 48 ≤ d ∧ d ≤ 57 := by
  intro n
  induction n using Nat.strong_induction_on with
  | _ n ih =>
    intro d hd
    rw [natDigits] at hd
    by_cases h : n < 10
    · simp only [if_pos h, List.mem_singleton] at hd
      omega
    · simp only [if_neg h, List.mem_append, List.mem_singleton] at hd
      rcases hd with hd | hd
      · exact ih (n / 10) (Nat.div_lt_self (by omega) (by omega)) d hd
      · omega

theorem natDigits_ne_nil (n : Nat) : natDigits n ≠ [] := by
  rw [natDigits]
  by_cases h : n < 10 <;> simp [h]

theorem natDigits_head :
    ∀ n, ∃ d t, natDigits n = d :: t ∧ 48 ≤ d ∧ d ≤ 57 := by
  intro n
  cases hd : natDigits n with
  | nil => exact absurd hd (natDigits_ne_nil n)
  | cons d t =>
    refine ⟨d, t, rfl, ?_⟩
    have := natDigits_mem_digit n d (by rw [hd]; exact List.mem_cons_self d t)
    exact this

theorem parseDigitsAcc_append {l₁ : List Nat} {acc m : Nat} (l₂ : List Nat)
    (h : parseDigitsAcc acc l₁ = some m) :
    parseDigitsAcc acc (l₁ ++ l₂) = parseDigitsAcc m l₂ := by
  induction l₁ generalizing acc with
  | nil =>
    have h' : some acc = some m := h
    cases h'
    rfl
  | cons d ds ih =>
    simp only [parseDigitsAcc] at h ⊢
    by_cases hdig : 48 ≤ d ∧ d ≤ 57
    · simp only [if_pos hdig] at h ⊢
      exact ih h
    · simp [if_neg hdig] at h

theorem parseDigitsAcc_natDigits :
    ∀ n acc, parseDigitsAcc acc (natDigits n)
      = some (acc * 10 ^ (natDigits n).length + n) := by
  intro n
  induction n using Nat.strong_induction_on with
  | _ n ih =>
    intro acc
    by_cases h : n < 10
    · rw [natDigits, if_pos h]
      simp only [parseDigitsAcc, List.length_singleton]
      rw [if_pos (by omega)]
      congr 1
      rw [pow_one]
      omega
    · have hq : n / 10 < n := Nat.div_lt_self (by omega) (by omega)
      rw [natDigits, if_neg h]
      rw [parseDigitsAcc_append _ (ih (n / 10) hq acc)]
      simp only [parseDigitsAcc]
      rw [if_pos (by have := Nat.mod_lt n (show 0 < 10 by omega); omega)]
      simp only [parseDigitsAcc, List.length_append, List.length_singleton]
      congr 1
      have hmod : 48 + n % 10 - 48 = n % 10 := by omega
      have hdm : n / 10 * 10 + n % 10 = n := by omega
      rw [hmod, pow_succ]
      calc (acc * 10 ^ (natDigits (n / 10)).length + n / 10) * 10 + n % 10
          = acc * (10 ^ (natDigits (n / 10)).length * 10)
            + (n / 10 * 10 + n % 10) := by ring
        _ = acc * (10 ^ (natDigits (n / 10)).length * 10) + n := by rw [hdm]

theorem parseDigits_natDigits (n : Nat) : parseDigits (natDigits n) = some n := by
  obtain ⟨d, t, hdt, _, _⟩ := natDigits_head n
  rw [hdt]
  show parseDigitsAcc 0 (d :: t) = some n
  have h := parseDigitsAcc_natDigits n 0
  rw [hdt] at h
  simpa using h

theorem parse_u64_natDigits {n : Nat} (h : n < 2 ^ 64) :
    parse_u64 (natDigits n) = .ok n := by
  obtain ⟨d, t, hdt, h1, h2⟩ := natDigits_head n
  have hp := parseDigits_natDigits n
  rw [hdt] at hp ⊢
  rw [parse_u64, if_neg (by omega), if_neg (by omega)]
  simp [hp]
  omega

theorem parse_usize_natDigits {n : Nat} (h : n < 2 ^ 64) :
    parse_usize (natDigits n) = .ok n :=
  parse_u64_natDigits h

theorem parse_i64_intDigits {i : Int} (h1 : -(2 ^ 63) ≤ i) (h2 : i < 2 ^ 63) :
    parse_i64 (intDigits i) = .ok i := by
  rw [intDigits]
  by_cases hneg : i < 0
  · rw [if_pos hneg, parse_i64, if_neg (by omega), if_pos rfl]
    simp only [parseDigits_natDigits]
    rw [if_pos (show i.natAbs ≤ 2 ^ 63 by omega)]
    congr 1
    omega
  · rw [if_neg hneg]
    obtain ⟨d, t, hdt, hd1, hd2⟩ := natDigits_head i.natAbs
    have hp := parseDigits_natDigits i.natAbs
    rw [hdt] at hp ⊢
    rw [parse_i64, if_neg (by omega), if_neg (by omega)]
    simp only [hp]
    rw [if_pos (show i.natAbs < 2 ^ 63 by omega)]
    congr 1
    omega

/-! ## Lemmas: the cursor on concatenated buffers -/

theorem slice_while_append {pre : List Nat} {e : Nat} (rest : List Nat)
    (h : ∀ x ∈ pre, x ≠ e) :
    slice_while (pre ++ e :: rest) e = .ok pre := by
  induction pre with
  | nil => simp [slice_while]
  | cons b bs ih =>
    have hb : b ≠ e := h b (List.mem_cons_self b bs)
    rw [List.cons_append, slice_while, if_neg hb,
      ih (fun x hx => h x (List.mem_cons_of_mem b hx))]
    rfl

theorem advance_to_append {pre : List Nat} {e : Nat} (rest : List Nat)
    (h : ∀ x ∈ pre, x ≠ e) :
    advance_to (pre ++ e :: rest) e = .ok (pre, rest) := by
  rw [advance_to, slice_while_append rest h]
  show ROut.ok (pre, (pre ++ e :: rest).drop (pre.length + 1)) = _
  have : pre ++ e :: rest = (pre ++ [e]) ++ rest := by simp
  rw [this]
  have hlen : pre.length + 1 = (pre ++ [e]).length := by simp
  rw [hlen, List.drop_left]

theorem advance_to_e_append {pre : List Nat} (rest : List Nat)
    (h : ∀ x ∈ pre, x ≠ 101) :
    advance_to_e (pre ++ 101 :: rest) = .ok (pre, rest) :=
  advance_to_append rest h

theorem advance_by_append (s rest : List Nat) :
    advance_by s.length (s ++ rest) = .ok (s, rest) := by
  rw [advance_by, if_pos (by simp)]
  rw [List.take_left, List.drop_left]

theorem parse_byte_string_encStr {s : List Nat} (rest : List Nat)
    (h : s.length < 2 ^ 64) :
    parse_byte_string (encStr s ++ rest) = .ok (s, rest) := by
  rw [parse_byte_string, encStr]
  have : natDigits s.length ++ 58 :: s ++ rest
      = natDigits s.length ++ 58 :: (s ++ rest) := by simp
  rw [this, advance_to_append (s ++ rest)
    (fun x hx => by have := natDigits_mem_digit s.length x hx; omega)]
  rw [ROut.bind_ok, parse_usize_natDigits h, ROut.bind_ok, advance_by_append]

/-! ## Lemmas: UTF-8 -/

theorem utf8EncodeChar_length_le (c : Nat) : (utf8EncodeChar c).length ≤ 4 := by
  rw [utf8EncodeChar]
  by_cases h1 : c < 0x80
  · rw [if_pos h1]
    simp only [List.length_singleton]
    omega
  · rw [if_neg h1]
    by_cases h2 : c < 0x800
    · rw [if_pos h2]
      simp only [List.length_cons, List.length_nil]
      omega
    · rw [if_neg h2]
      by_cases h3 : c < 0x10000 <;>
        [rw [if_pos h3]; rw [if_neg h3]] <;>
        simp only [List.length_cons, List.length_nil] <;> omega

theorem utf8Chars_encodeChar {c : Nat} (rest : List Nat)
    (h : validScalar c = true) :
    utf8Chars (utf8EncodeChar c ++ rest) = (utf8Chars rest).map (fun cs => c :: cs) := by
  simp only [validScalar, Bool.or_eq_true, Bool.and_eq_true, decide_eq_true_eq] at h
  rw [utf8EncodeChar]
  by_cases h1 : c < 0x80
  · rw [if_pos h1]
    rw [List.cons_append, List.nil_append, utf8Chars, if_pos h1]
  · rw [if_neg h1]
    by_cases h2 : c < 0x800
    · rw [if_pos h2]
      rw [List.cons_append, List.cons_append, List.nil_append, utf8Chars]
      rw [if_neg (by omega), if_neg (by omega), if_pos (by omega)]
      rw [utf8Tail2, if_pos (by simp only [utf8Cont, Bool.and_eq_true, decide_eq_true_eq]; omega)]
      have hc : (0xC0 + c / 64 - 0xC0) * 64 + (0x80 + c % 64 - 0x80) = c := by omega
      rw [hc]
    · rw [if_neg h2]
      by_cases h3 : c < 0x10000
      · rw [if_pos h3]
        rw [List.cons_append, List.cons_append, List.cons_append, List.nil_append,
          utf8Chars]
        rw [if_neg (by omega), if_neg (by omega), if_neg (by omega),
          if_pos (by omega)]
        rw [utf8Tail3, if_pos (by
          simp only [utf8Check3, utf8Cont, Bool.and_eq_true, Bool.or_eq_true,
            Bool.not_eq_true', beq_eq_false_iff_ne, ne_eq, beq_iff_eq,
            decide_eq_true_eq]
          omega)]
        have hc : (0xE0 + c / 4096 - 0xE0) * 4096 + (0x80 + c / 64 % 64 - 0x80) * 64
            + (0x80 + c % 64 - 0x80) = c := by omega
        rw [hc]
      · rw [if_neg h3]
        rw [List.cons_append, List.cons_append, List.cons_append, List.cons_append,
          List.nil_append, utf8Chars]
        rw [if_neg (by omega), if_neg (by omega), if_neg (by omega),
          if_neg (by omega), if_pos (by omega)]
        rw [utf8Tail4, if_pos (by
          simp only [utf8Check4, utf8Cont, Bool.and_eq_true, Bool.or_eq_true,
            Bool.not_eq_true', beq_eq_false_iff_ne, ne_eq, beq_iff_eq,
            decide_eq_true_eq]
          omega)]
        have hc : (0xF0 + c / 262144 - 0xF0) * 262144 + (0x80 + c / 4096 % 64 - 0x80) * 4096
            + (0x80 + c / 64 % 64 - 0x80) * 64 + (0x80 + c % 64 - 0x80) = c := by omega
        rw [hc]

theorem utf8Chars_encodeChar_nil {c : Nat} (h : validScalar c = true) :
    utf8Chars (utf8EncodeChar c) = some [c] := by
  have := utf8Chars_encodeChar [] h
  simpa [utf8Chars] using this

theorem isValidUtf8_encodeChar {c : Nat} (h : validScalar c = true) :
    isValidUtf8 (utf8EncodeChar c) = true := by
  rw [isValidUtf8, utf8Chars_encodeChar_nil h]
  rfl

/-! ## Lemmas: heads of encoded values -/

theorem except_bind_ok (a : α) (f : α → Except ε β) :
    (Except.ok a : Except ε α) >>= f = f a := rfl

theorem except_bind_error (e : ε) (f : α → Except ε β) :
    (Except.error e : Except ε α) >>= f = Except.error e := rfl

theorem encStr_head (s : List Nat) :
    ∃ d t, encStr s = d :: t ∧ 48 ≤ d ∧ d ≤ 57 := by
  obtain ⟨d, t, hdt, h1, h2⟩ := natDigits_head s.length
  exact ⟨d, t ++ 58 :: s, by rw [encStr, hdt]; rfl, h1, h2⟩

/-- Every encodable value's wire form is nonempty and does not begin with
`'e'`: it begins with `'i'`, `'l'`, `'d'` or a decimal digit. -/
theorem wire_head :
    ∀ (v : Value) (s : Shape), goodVal s v = true →
      ∃ b t, wire v = b :: t ∧ b ≠ 101
  | .vI64 i, _, _ => by rw [wire]; exact ⟨105, _, rfl, by omega⟩
  | .vU64 n, _, _ => by rw [wire]; exact ⟨105, _, rfl, by omega⟩
  | .vBool b, _, _ => by rw [wire]; exact ⟨105, _, rfl, by omega⟩
  | .vUnit, _, _ => by rw [wire]; exact ⟨48, _, rfl, by omega⟩
  | .vChar c, _, _ => by
    rw [wire]
    obtain ⟨d, t, hdt, h1, h2⟩ := encStr_head (utf8EncodeChar c)
    exact ⟨d, t, hdt, by omega⟩
  | .vText s, _, _ => by
    rw [wire]
    obtain ⟨d, t, hdt, h1, h2⟩ := encStr_head s
    exact ⟨d, t, hdt, by omega⟩
  | .vBytes s, _, _ => by
    rw [wire]
    obtain ⟨d, t, hdt, h1, h2⟩ := encStr_head s
    exact ⟨d, t, hdt, by omega⟩
  | .vF32, s, h => by cases s <;> simp [goodVal] at h
  | .vF64, s, h => by cases s <;> simp [goodVal] at h
  | .vNone, s, h => by cases s <;> simp [goodVal] at h
  | .vOptSome v, s, h => by
    have hs : ∃ s', s = .sOpt s' ∧ goodVal s' v = true := by
      cases s <;> simp [goodVal] at h <;> exact ⟨_, rfl, h⟩
    obtain ⟨s', rfl, h'⟩ := hs
    obtain ⟨b, t, hbt, hb⟩ := wire_head v s' h'
    exact ⟨b, t, by rw [wire, hbt], hb⟩
  | .vList xs, _, _ => by rw [wire]; exact ⟨108, _, rfl, by omega⟩
  | .vTuple xs, _, _ => by rw [wire]; exact ⟨108, _, rfl, by omega⟩
  | .vDict ps, _, _ => by rw [wire]; exact ⟨100, _, rfl, by omega⟩
  | .vStruct ps, _, _ => by rw [wire]; exact ⟨100, _, rfl, by omega⟩
  | .vEnum name .pUnit, _, _ => by
    rw [wire]
    obtain ⟨d, t, hdt, h1, h2⟩ := encStr_head name
    exact ⟨d, t, hdt, by omega⟩
  | .vEnum name (.pNewtype v), _, _ => by rw [wire]; exact ⟨100, _, rfl, by omega⟩
  | .vEnum name (.pTuple xs), _, _ => by rw [wire]; exact ⟨108, _, rfl, by omega⟩
  | .vEnum name (.pStruct ps), _, _ => by rw [wire]; exact ⟨100, _, rfl, by omega⟩

/-! ## Lemmas: `serialize` succeeds with the `wire` bytes on good values -/

mutual
theorem serialize_eq_wire :
    ∀ (v : Value) (s : Shape), goodVal s v = true → serialize v = .ok (wire v)
  | .vI64 i, _, _ => by rw [serialize, wire]
  | .vU64 n, _, _ => by rw [serialize, wire]
  | .vBool b, _, _ => by rw [serialize, wire]
  | .vUnit, _, _ => by rw [serialize, wire]
  | .vChar c, _, _ => by rw [serialize, wire]
  | .vText s, _, _ => by rw [serialize, wire]
  | .vBytes s, _, _ => by rw [serialize, wire]
  | .vF32, s, h => by cases s <;> simp [goodVal] at h
  | .vF64, s, h => by cases s <;> simp [goodVal] at h
  | .vNone, s, h => by cases s <;> simp [goodVal] at h
  | .vOptSome v, s, h => by
    have hs : ∃ s', s = .sOpt s' ∧ goodVal s' v = true := by
      cases s <;> simp [goodVal] at h <;> exact ⟨_, rfl, h⟩
    obtain ⟨s', rfl, h'⟩ := hs
    rw [serialize, wire]
    exact serialize_eq_wire v s' h'
  | .vList xs, s, h => by
    have hs : ∃ s', s = .sList s' ∧ goodElems s' xs = true := by
      cases s <;> simp [goodVal] at h <;> exact ⟨_, rfl, h⟩
    obtain ⟨s', rfl, h'⟩ := hs
    rw [serialize, wire, serializeElems_eq_wire xs s' h', except_bind_ok]
  | .vTuple xs, s, h => by
    have hs : ∃ ss, s = .sTuple ss ∧ goodTuple ss xs = true := by
      cases s <;> simp [goodVal] at h <;> exact ⟨_, rfl, h⟩
    obtain ⟨ss, rfl, h'⟩ := hs
    rw [serialize, wire, serializeTuple_eq_wire xs ss h', except_bind_ok]
  | .vDict ps, s, h => by
    have hs : ∃ s', s = .sDict s' ∧ goodDict s' ps = true := by
      cases s <;> simp [goodVal] at h <;> exact ⟨_, rfl, h⟩
    obtain ⟨s', rfl, h'⟩ := hs
    rw [serialize, wire, serializePairsDict_eq_wire ps s' h', except_bind_ok]
  | .vStruct ps, s, h => by
    have hs : ∃ fs, s = .sStruct fs ∧ goodFields fs ps = true := by
      cases s <;> simp [goodVal] at h <;> exact ⟨_, rfl, h⟩
    obtain ⟨fs, rfl, h'⟩ := hs
    rw [serialize, wire, serializePairsFields_eq_wire ps fs h', except_bind_ok]
  | .vEnum name .pUnit, _, _ => by rw [serialize, wire]
  | .vEnum name (.pNewtype v), s, h => by
    have hs : ∃ vs, s = .sEnum vs ∧ goodVariant vs name (.pNewtype v) = true := by
      cases s <;> simp [goodVal] at h <;> exact ⟨_, rfl, h⟩
    obtain ⟨vs, rfl, h'⟩ := hs
    rw [goodVariant] at h'
    rcases hlk : vs.lookup name with _ | vsh
    · rw [hlk] at h'; simp at h'
    · rw [hlk] at h'
      cases vsh with
      | vsNewtype s' =>
        rw [Bool.and_eq_true] at h'
        rw [serialize, wire, serialize_eq_wire v s' h'.2, except_bind_ok]
      | vsUnit => simp at h'
      | vsTuple ss => simp at h'
      | vsStruct fs => simp at h'
  | .vEnum name (.pTuple xs), s, h => by
    cases s <;> simp [goodVal, goodVariant] at h
  | .vEnum name (.pStruct ps), s, h => by
    have hs : ∃ vs, s = .sEnum vs ∧ goodVariant vs name (.pStruct ps) = true := by
      cases s <;> simp [goodVal] at h <;> exact ⟨_, rfl, h⟩
    obtain ⟨vs, rfl, h'⟩ := hs
    rw [goodVariant] at h'
    rcases hlk : vs.lookup name with _ | vsh
    · rw [hlk] at h'; simp at h'
    · rw [hlk] at h'
      cases vsh with
      | vsStruct fs =>
        rw [Bool.and_eq_true] at h'
        rw [serialize, wire, serializePairsFields_eq_wire ps fs h'.2, except_bind_ok]
      | vsUnit => simp at h'
      | vsTuple ss => simp at h'
      | vsNewtype s' => simp at h'

theorem serializeElems_eq_wire :
    ∀ (xs : List Value) (s : Shape), goodElems s xs = true →
      serializeElems xs = .ok (wireElems xs)
  | [], _, _ => by rw [serializeElems, wireElems]
  | x :: xs, s, h => by
    rw [goodElems, Bool.and_eq_true] at h
    rw [serializeElems, wireElems, serialize_eq_wire x s h.1, except_bind_ok,
      serializeElems_eq_wire xs s h.2, except_bind_ok]

theorem serializeTuple_eq_wire :
    ∀ (xs : List Value) (ss : List Shape), goodTuple ss xs = true →
      serializeElems xs = .ok (wireElems xs)
  | [], _, _ => by rw [serializeElems, wireElems]
  | x :: xs, [], h => by simp [goodTuple] at h
  | x :: xs, s :: ss, h => by
    rw [goodTuple, Bool.and_eq_true] at h
    rw [serializeElems, wireElems, serialize_eq_wire x s h.1, except_bind_ok,
      serializeTuple_eq_wire xs ss h.2, except_bind_ok]

theorem serializePairsDict_eq_wire :
    ∀ (ps : List (List Nat × Value)) (s : Shape), goodDict s ps = true →
      serializePairs ps = .ok (wirePairs ps)
  | [], _, _ => by rw [serializePairs, wirePairs]
  | (k, v) :: ps, s, h => by
    rw [goodDict, Bool.and_eq_true, Bool.and_eq_true] at h
    rw [serializePairs, wirePairs, serialize_eq_wire v s h.1.2, except_bind_ok,
      serializePairsDict_eq_wire ps s h.2, except_bind_ok]

theorem serializePairsFields_eq_wire :
    ∀ (ps : List (List Nat × Value)) (fs : List (List Nat × Shape)),
      goodFields fs ps = true → serializePairs ps = .ok (wirePairs ps)
  | [], _, _ => by rw [serializePairs, wirePairs]
  | (k, v) :: ps, fs, h => by
    rw [goodFields, Bool.and_eq_true, Bool.and_eq_true] at h
    have h2 := h.2
    have h1 := h.1.2
    rcases hlk : fs.lookup k with _ | s'
    · rw [hlk] at h1; simp at h1
    · rw [hlk] at h1
      rw [serializePairs, wirePairs, serialize_eq_wire v s' h1, except_bind_ok,
        serializePairsFields_eq_wire ps fs h2, except_bind_ok]
end

/-! ## Lemmas: fuel accounting -/

theorem costPayload_pos (p : VPayload) : 1 ≤ costPayload p := by
  cases p <;> simp [costPayload] <;> omega

theorem cost_pos (v : Value) : 1 ≤ cost v := by
  cases v <;> simp [cost] <;> try omega
  case vEnum name p => exact costPayload_pos p

theorem costElems_pos (xs : List Value) : 1 ≤ costElems xs := by
  cases xs <;> simp [costElems] <;> omega

theorem costPairs_pos (ps : List (List Nat × Value)) : 1 ≤ costPairs ps := by
  cases ps with
  | nil => simp [costPairs]
  | cons p ps => obtain ⟨k, v⟩ := p; simp [costPairs]; omega

theorem natDigits_ne_e {n : Nat} : ∀ x ∈ natDigits n, x ≠ 101 := by
  intro x hx
  have := natDigits_mem_digit n x hx
  omega

theorem intDigits_ne_e {i : Int} : ∀ x ∈ intDigits i, x ≠ 101 := by
  intro x hx
  rw [intDigits] at hx
  by_cases hneg : i < 0
  · rw [if_pos hneg] at hx
    rcases List.mem_cons.mp hx with h | h
    · omega
    · have := natDigits_mem_digit i.natAbs x h
      omega
  · rw [if_neg hneg] at hx
    have := natDigits_mem_digit i.natAbs x hx
    omega

/-! ## The round-trip induction: decoding the wire form of a good value
succeeds and consumes exactly that wire form -/

mutual
theorem deserialize_wire :
    ∀ (v : Value) (s : Shape) (fuel : Nat) (rest : List Nat),
      goodVal s v = true → cost v ≤ fuel →
      deserialize fuel s (wire v ++ rest) = .ok (v, rest)
  | .vI64 i, s, fuel, rest, h, hf => by
    cases s <;> simp [goodVal] at h
    simp only [cost] at hf
    obtain ⟨f, rfl⟩ : ∃ f, fuel = f + 1 := ⟨fuel - 1, by omega⟩
    have hin : wire (.vI64 i) ++ rest = 105 :: (intDigits i ++ 101 :: rest) := by
      simp [wire]
    rw [hin, deserialize]
    simp only [ROut.bind_eq, ROut.bind_ok, advance, peek_next, if_true, if_false,
      advance_to_e_append rest intDigits_ne_e,
      parse_i64_intDigits (show -(2 ^ 63) ≤ i by omega) (show i < 2 ^ 63 by omega)]
  | .vU64 n, s, fuel, rest, h, hf => by
    cases s <;> simp [goodVal] at h
    simp only [cost] at hf
    obtain ⟨f, rfl⟩ : ∃ f, fuel = f + 1 := ⟨fuel - 1, by omega⟩
    have hin : wire (.vU64 n) ++ rest = 105 :: (natDigits n ++ 101 :: rest) := by
      simp [wire]
    rw [hin, deserialize]
    simp only [ROut.bind_eq, ROut.bind_ok, advance, peek_next, if_true, if_false,
      advance_to_e_append rest natDigits_ne_e,
      parse_u64_natDigits (show n < 2 ^ 64 by omega)]
  | .vBool b, s, fuel, rest, h, hf => by
    cases s <;> simp [goodVal] at h
    simp only [cost] at hf
    obtain ⟨f, rfl⟩ : ∃ f, fuel = f + 1 := ⟨fuel - 1, by omega⟩
    cases b
    · have hin : wire (.vBool false) ++ rest = 105 :: (48 :: 101 :: rest) := by
        simp [wire, natDigits]
      have hae : advance_to_e (48 :: 101 :: rest) = .ok ([48], rest) :=
        @advance_to_e_append [48] rest (by intro x hx; simp at hx; omega)
      rw [hin, deserialize]
      simp only [ROut.bind_eq, ROut.bind_ok, advance, peek_next, if_true, if_false,
        or_true, true_or, hae]
      rfl
    · have hin : wire (.vBool true) ++ rest = 105 :: (49 :: 101 :: rest) := by
        simp [wire, natDigits]
      have hae : advance_to_e (49 :: 101 :: rest) = .ok ([49], rest) :=
        @advance_to_e_append [49] rest (by intro x hx; simp at hx; omega)
      rw [hin, deserialize]
      simp only [ROut.bind_eq, ROut.bind_ok, advance, peek_next, if_true, if_false,
        or_true, true_or, hae]
      rfl
  | .vUnit, s, fuel, rest, h, hf => by
    cases s <;> simp [goodVal] at h
    simp only [cost] at hf
    obtain ⟨f, rfl⟩ : ∃ f, fuel = f + 1 := ⟨fuel - 1, by omega⟩
    have hin : wire .vUnit ++ rest = 48 :: 58 :: rest := by simp [wire]
    have hab : advance_by 2 (48 :: 58 :: rest) = .ok ([48, 58], rest) := by
      rw [advance_by, if_pos (by simp only [List.length_cons]; omega)]
      rfl
    rw [hin, deserialize]
    simp only [ROut.bind_eq, ROut.bind_ok, hab]
  | .vChar c, s, fuel, rest, h, hf => by
    cases s <;> simp [goodVal] at h
    simp only [cost] at hf
    obtain ⟨f, rfl⟩ : ∃ f, fuel = f + 1 := ⟨fuel - 1, by omega⟩
    have hlen := utf8EncodeChar_length_le c
    have hin : wire (.vChar c) ++ rest = encStr (utf8EncodeChar c) ++ rest := by
      rw [wire]
    have hngt : ¬ (utf8EncodeChar c).length > 4 := by omega
    rw [hin, deserialize]
    simp only [ROut.bind_eq, ROut.bind_ok, if_true, if_false, hngt,
      parse_byte_string_encStr rest (show (utf8EncodeChar c).length < 2 ^ 64 by omega),
      utf8Chars_encodeChar_nil h]
  | .vText s0, s, fuel, rest, h, hf => by
    cases s <;> simp [goodVal] at h
    simp only [cost] at hf
    obtain ⟨f, rfl⟩ : ∃ f, fuel = f + 1 := ⟨fuel - 1, by omega⟩
    have hin : wire (.vText s0) ++ rest = encStr s0 ++ rest := by rw [wire]
    rw [hin, deserialize]
    simp only [ROut.bind_eq, ROut.bind_ok, if_true, if_false, h.1,
      parse_byte_string_encStr rest h.2]
  | .vBytes s0, s, fuel, rest, h, hf => by
    cases s <;> simp [goodVal] at h
    simp only [cost] at hf
    obtain ⟨f, rfl⟩ : ∃ f, fuel = f + 1 := ⟨fuel - 1, by omega⟩
    have hin : wire (.vBytes s0) ++ rest = encStr s0 ++ rest := by rw [wire]
    rw [hin, deserialize]
    simp only [ROut.bind_eq, ROut.bind_ok, parse_byte_string_encStr rest h]
  | .vF32, s, fuel, rest, h, _ => by cases s <;> simp [goodVal] at h
  | .vF64, s, fuel, rest, h, _ => by cases s <;> simp [goodVal] at h
  | .vNone, s, fuel, rest, h, _ => by cases s <;> simp [goodVal] at h
  | .vOptSome v, s, fuel, rest, h, hf => by
    cases s <;> simp [goodVal] at h
    case sOpt s' =>
    simp only [cost] at hf
    obtain ⟨f, rfl⟩ : ∃ f, fuel = f + 1 := ⟨fuel - 1, by have := cost_pos v; omega⟩
    obtain ⟨b, t, hbt, hb⟩ := wire_head v s' h
    have hin : wire (.vOptSome v) ++ rest = b :: (t ++ rest) := by
      rw [wire, hbt]; rfl
    have hd : deserialize f s' (b :: (t ++ rest)) = .ok (v, rest) := by
      rw [show b :: (t ++ rest) = wire v ++ rest by rw [hbt]; rfl]
      exact deserialize_wire v s' f rest h (by omega)
    rw [hin, deserialize]
    simp only [ROut.bind_eq, ROut.bind_ok, hd]
    simp
  | .vList xs, s, fuel, rest, h, hf => by
    cases s <;> simp [goodVal] at h
    case sList s' =>
    simp only [cost] at hf
    obtain ⟨f, rfl⟩ : ∃ f, fuel = f + 1 := ⟨fuel - 1, by omega⟩
    have hin : wire (.vList xs) ++ rest = 108 :: (wireElems xs ++ 101 :: rest) := by
      simp [wire]
    have hl : deserializeListElems f s' (wireElems xs ++ 101 :: rest) = .ok (xs, rest) :=
      listElems_wire xs s' f rest h (by omega)
    rw [hin, deserialize]
    simp only [ROut.bind_eq, ROut.bind_ok, advance, if_true, if_false, hl]
  | .vTuple xs, s, fuel, rest, h, hf => by
    cases s <;> simp [goodVal] at h
    case sTuple ss =>
    simp only [cost] at hf
    obtain ⟨f, rfl⟩ : ∃ f, fuel = f + 1 := ⟨fuel - 1, by omega⟩
    have hin : wire (.vTuple xs) ++ rest = 108 :: (wireElems xs ++ 101 :: rest) := by
      simp [wire]
    have hl : deserializeTupleElems f ss (wireElems xs ++ 101 :: rest)
        = .ok (xs, 101 :: rest) :=
      tupleElems_wire xs ss f (101 :: rest) h (by omega)
    rw [hin, deserialize]
    simp only [ROut.bind_eq, ROut.bind_ok, advance, if_true, if_false, hl]
  | .vDict ps, s, fuel, rest, h, hf => by
    cases s <;> simp [goodVal] at h
    case sDict s' =>
    simp only [cost] at hf
    obtain ⟨f, rfl⟩ : ∃ f, fuel = f + 1 := ⟨fuel - 1, by omega⟩
    have hin : wire (.vDict ps) ++ rest = 100 :: (wirePairs ps ++ 101 :: rest) := by
      simp [wire]
    have hl : deserializeDictPairs f s' (wirePairs ps ++ 101 :: rest) = .ok (ps, rest) :=
      dictPairs_wire ps s' f rest h (by omega)
    rw [hin, deserialize]
    simp only [ROut.bind_eq, ROut.bind_ok, advance, if_true, if_false, hl]
  | .vStruct ps, s, fuel, rest, h, hf => by
    cases s <;> simp [goodVal] at h
    case sStruct fs =>
    simp only [cost] at hf
    obtain ⟨f, rfl⟩ : ∃ f, fuel = f + 1 := ⟨fuel - 1, by omega⟩
    have hin : wire (.vStruct ps) ++ rest = 100 :: (wirePairs ps ++ 101 :: rest) := by
      simp [wire]
    have hl : deserializeStructFields f fs (wirePairs ps ++ 101 :: rest) = .ok (ps, rest) :=
      structFields_wire ps fs f rest h (by omega)
    rw [hin, deserialize]
    simp only [ROut.bind_eq, ROut.bind_ok, advance, if_true, if_false, hl]
  | .vEnum name .pUnit, s, fuel, rest, h, hf => by
    cases s <;> simp [goodVal] at h
    case sEnum vs =>
    rw [goodVariant] at h
    rcases hlk : vs.lookup name with _ | vsh
    · rw [hlk] at h; simp at h
    · rw [hlk] at h
      cases vsh
      case vsNewtype s' => simp at h
      case vsTuple ss => simp at h
      case vsStruct fs => simp at h
      case vsUnit =>
      simp only [Bool.and_eq_true, decide_eq_true_eq] at h
      simp only [cost, costPayload] at hf
      obtain ⟨f, rfl⟩ : ∃ f, fuel = f + 1 := ⟨fuel - 1, by omega⟩
      obtain ⟨d, t, hdt, hd1, hd2⟩ := encStr_head name
      have hin : wire (.vEnum name .pUnit) ++ rest = encStr name ++ rest := by
        rw [wire]
      have hpk : peek_next (encStr name ++ rest) = .ok d := by rw [hdt]; rfl
      have hne : ¬ (d = 100) := by omega
      rw [hin, deserialize]
      simp only [ROut.bind_eq, ROut.bind_ok, if_true, if_false, and_true, true_and,
        hpk, hne, hd1, hd2, h.1, hlk, parse_byte_string_encStr rest h.2]
  | .vEnum name (.pNewtype v), s, fuel, rest, h, hf => by
    cases s <;> simp [goodVal] at h
    case sEnum vs =>
    rw [goodVariant] at h
    rcases hlk : vs.lookup name with _ | vsh
    · rw [hlk] at h; simp at h
    · rw [hlk] at h
      cases vsh
      case vsUnit => simp at h
      case vsTuple ss => simp at h
      case vsStruct fs => simp at h
      case vsNewtype s' =>
      simp only [Bool.and_eq_true, decide_eq_true_eq] at h
      simp only [cost, costPayload] at hf
      obtain ⟨f, rfl⟩ : ∃ f, fuel = f + 1 := ⟨fuel - 1, by omega⟩
      obtain ⟨g, rfl⟩ : ∃ g, f = g + 1 := ⟨f - 1, by have := cost_pos v; omega⟩
      obtain ⟨d, t, hdt, hd1, hd2⟩ := encStr_head name
      have hin : wire (.vEnum name (.pNewtype v)) ++ rest
          = 100 :: (encStr name ++ (wire v ++ 101 :: rest)) := by
        simp [wire]
      have hpk0 : peek_next (100 :: (encStr name ++ (wire v ++ 101 :: rest)))
          = .ok 100 := rfl
      have hpk : peek_next (encStr name ++ (wire v ++ 101 :: rest)) = .ok d := by
        rw [hdt]; rfl
      have hne : ¬ (d = 100) := by omega
      have hdv : deserialize g s' (wire v ++ 101 :: rest) = .ok (v, 101 :: rest) :=
        deserialize_wire v s' g (101 :: rest) h.2 (by omega)
      rw [hin, deserialize]
      simp only [ROut.bind_eq, ROut.bind_ok, advance, if_true, if_false,
        and_true, true_and, deserializeVariantInner, hpk0, hpk, hd1, hd2, hlk, hdv,
        parse_byte_string_encStr (wire v ++ 101 :: rest) h.1]
  | .vEnum name (.pTuple xs), s, fuel, rest, h, hf => by
    cases s <;> simp [goodVal, goodVariant] at h
  | .vEnum name (.pStruct ps), s, fuel, rest, h, hf => by
    cases s <;> simp [goodVal] at h
    case sEnum vs =>
    rw [goodVariant] at h
    rcases hlk : vs.lookup name with _ | vsh
    · rw [hlk] at h; simp at h
    · rw [hlk] at h
      cases vsh
      case vsUnit => simp at h
      case vsTuple ss => simp at h
      case vsNewtype s' => simp at h
      case vsStruct fs =>
      simp only [Bool.and_eq_true, decide_eq_true_eq] at h
      simp only [cost, costPayload] at hf
      obtain ⟨f, rfl⟩ : ∃ f, fuel = f + 1 := ⟨fuel - 1, by omega⟩
      obtain ⟨g, rfl⟩ : ∃ g, f = g + 1 := ⟨f - 1, by have := costPairs_pos ps; omega⟩
      obtain ⟨d, t, hdt, hd1, hd2⟩ := encStr_head name
      have hin : wire (.vEnum name (.pStruct ps)) ++ rest
          = 100 :: (encStr name ++ (100 :: (wirePairs ps ++ 101 :: 101 :: rest))) := by
        simp [wire]
      have hpk0 : peek_next
            (100 :: (encStr name ++ (100 :: (wirePairs ps ++ 101 :: 101 :: rest))))
          = .ok 100 := rfl
      have hpk : peek_next (encStr name ++ (100 :: (wirePairs ps ++ 101 :: 101 :: rest)))
          = .ok d := by rw [hdt]; rfl
      have hne : ¬ (d = 100) := by omega
      have hfs : deserializeStructFields g fs (wirePairs ps ++ 101 :: 101 :: rest)
          = .ok (ps, 101 :: rest) :=
        structFields_wire ps fs g (101 :: rest) h.2 (by omega)
      rw [hin, deserialize]
      simp only [ROut.bind_eq, ROut.bind_ok, advance, if_true, if_false,
        and_true, true_and, deserializeVariantInner, hpk0, hpk, hd1, hd2, hlk, hfs,
        parse_byte_string_encStr (100 :: (wirePairs ps ++ 101 :: 101 :: rest)) h.1]

theorem listElems_wire :
    ∀ (xs : List Value) (s : Shape) (fuel : Nat) (rest : List Nat),
      goodElems s xs = true → costElems xs ≤ fuel →
      deserializeListElems fuel s (wireElems xs ++ 101 :: rest) = .ok (xs, rest)
  | [], s, fuel, rest, _, hf => by
    simp only [costElems] at hf
    obtain ⟨f, rfl⟩ : ∃ f, fuel = f + 1 := ⟨fuel - 1, by omega⟩
    have hin : wireElems ([] : List Value) ++ 101 :: rest = 101 :: rest := by
      rw [wireElems]; rfl
    rw [hin, deserializeListElems]
    simp only [ROut.bind_eq, ROut.bind_ok, advance, peek_next, if_true, if_false]
  | x :: xs, s, fuel, rest, h, hf => by
    rw [goodElems, Bool.and_eq_true] at h
    simp only [costElems] at hf
    obtain ⟨f, rfl⟩ : ∃ f, fuel = f + 1 := ⟨fuel - 1, by omega⟩
    obtain ⟨b, t, hbt, hb⟩ := wire_head x s h.1
    have hin : wireElems (x :: xs) ++ 101 :: rest
        = wire x ++ (wireElems xs ++ 101 :: rest) := by simp [wireElems]
    have hpk : peek_next (wire x ++ (wireElems xs ++ 101 :: rest)) = .ok b := by
      rw [hbt]; rfl
    have hdx : deserialize f s (wire x ++ (wireElems xs ++ 101 :: rest))
        = .ok (x, wireElems xs ++ 101 :: rest) :=
      deserialize_wire x s f _ h.1 (by omega)
    have hrest : deserializeListElems f s (wireElems xs ++ 101 :: rest) = .ok (xs, rest) :=
      listElems_wire xs s f rest h.2 (by omega)
    rw [hin, deserializeListElems]
    simp only [ROut.bind_eq, ROut.bind_ok, if_true, if_false, hpk, hb, hdx, hrest]

theorem tupleElems_wire :
    ∀ (xs : List Value) (ss : List Shape) (fuel : Nat) (rest : List Nat),
      goodTuple ss xs = true → costElems xs ≤ fuel →
      deserializeTupleElems fuel ss (wireElems xs ++ rest) = .ok (xs, rest)
  | [], [], fuel, rest, _, hf => by
    simp only [costElems] at hf
    obtain ⟨f, rfl⟩ : ∃ f, fuel = f + 1 := ⟨fuel - 1, by omega⟩
    have hin : wireElems ([] : List Value) ++ rest = rest := by rw [wireElems]; rfl
    rw [hin, deserializeTupleElems]
  | [], s :: ss, fuel, rest, h, _ => by simp [goodTuple] at h
  | x :: xs, [], fuel, rest, h, _ => by simp [goodTuple] at h
  | x :: xs, s :: ss, fuel, rest, h, hf => by
    rw [goodTuple, Bool.and_eq_true] at h
    simp only [costElems] at hf
    obtain ⟨f, rfl⟩ : ∃ f, fuel = f + 1 := ⟨fuel - 1, by omega⟩
    obtain ⟨b, t, hbt, hb⟩ := wire_head x s h.1
    have hin : wireElems (x :: xs) ++ rest = wire x ++ (wireElems xs ++ rest) := by
      simp [wireElems]
    have hpk : peek_next (wire x ++ (wireElems xs ++ rest)) = .ok b := by
      rw [hbt]; rfl
    have hdx : deserialize f s (wire x ++ (wireElems xs ++ rest))
        = .ok (x, wireElems xs ++ rest) :=
      deserialize_wire x s f _ h.1 (by omega)
    have hrest : deserializeTupleElems f ss (wireElems xs ++ rest) = .ok (xs, rest) :=
      tupleElems_wire xs ss f rest h.2 (by omega)
    rw [hin, deserializeTupleElems]
    simp only [ROut.bind_eq, ROut.bind_ok, if_true, if_false, hpk, hb, hdx, hrest]

theorem dictPairs_wire :
    ∀ (ps : List (List Nat × Value)) (s : Shape) (fuel : Nat) (rest : List Nat),
      goodDict s ps = true → costPairs ps ≤ fuel →
      deserializeDictPairs fuel s (wirePairs ps ++ 101 :: rest) = .ok (ps, rest)
  | [], s, fuel, rest, _, hf => by
    simp only [costPairs] at hf
    obtain ⟨f, rfl⟩ : ∃ f, fuel = f + 1 := ⟨fuel - 1, by omega⟩
    have hin : wirePairs ([] : List (List Nat × Value)) ++ 101 :: rest = 101 :: rest := by
      rw [wirePairs]; rfl
    rw [hin, deserializeDictPairs]
    simp only [ROut.bind_eq, ROut.bind_ok, advance, peek_next, if_true, if_false]
  | (k, v) :: ps, s, fuel, rest, h, hf => by
    rw [goodDict] at h
    simp only [Bool.and_eq_true, decide_eq_true_eq] at h
    obtain ⟨⟨⟨h1, h2⟩, h3⟩, h4⟩ := h
    simp only [costPairs] at hf
    obtain ⟨f, rfl⟩ : ∃ f, fuel = f + 1 := ⟨fuel - 1, by omega⟩
    obtain ⟨d, t, hdt, hd1, hd2⟩ := encStr_head k
    have hin : wirePairs ((k, v) :: ps) ++ 101 :: rest
        = encStr k ++ (wire v ++ (wirePairs ps ++ 101 :: rest)) := by
      simp [wirePairs]
    have hpk : peek_next (encStr k ++ (wire v ++ (wirePairs ps ++ 101 :: rest)))
        = .ok d := by rw [hdt]; rfl
    have hne : ¬ (d = 101) := by omega
    have hdv : deserialize f s (wire v ++ (wirePairs ps ++ 101 :: rest))
        = .ok (v, wirePairs ps ++ 101 :: rest) :=
      deserialize_wire v s f _ h3 (by omega)
    have hrec : deserializeDictPairs f s (wirePairs ps ++ 101 :: rest) = .ok (ps, rest) :=
      dictPairs_wire ps s f rest h4 (by omega)
    rw [hin, deserializeDictPairs]
    simp only [ROut.bind_eq, ROut.bind_ok, if_true, if_false, hpk, hne, h1, hdv, hrec,
      parse_byte_string_encStr (wire v ++ (wirePairs ps ++ 101 :: rest)) h2]

theorem structFields_wire :
    ∀ (ps : List (List Nat × Value)) (fs : List (List Nat × Shape))
      (fuel : Nat) (rest : List Nat),
      goodFields fs ps = true → costPairs ps ≤ fuel →
      deserializeStructFields fuel fs (wirePairs ps ++ 101 :: rest) = .ok (ps, rest)
  | [], fs, fuel, rest, _, hf => by
    simp only [costPairs] at hf
    obtain ⟨f, rfl⟩ : ∃ f, fuel = f + 1 := ⟨fuel - 1, by omega⟩
    have hin : wirePairs ([] : List (List Nat × Value)) ++ 101 :: rest = 101 :: rest := by
      rw [wirePairs]; rfl
    rw [hin, deserializeStructFields]
    simp only [ROut.bind_eq, ROut.bind_ok, advance, peek_next, if_true, if_false]
  | (k, v) :: ps, fs, fuel, rest, h, hf => by
    rw [goodFields] at h
    simp only [Bool.and_eq_true, decide_eq_true_eq] at h
    obtain ⟨⟨h1, h2⟩, h4⟩ := h
    simp only [costPairs] at hf
    obtain ⟨f, rfl⟩ : ∃ f, fuel = f + 1 := ⟨fuel - 1, by omega⟩
    obtain ⟨d, t, hdt, hd1, hd2⟩ := encStr_head k
    rcases hlk : fs.lookup k with _ | s'
    · rw [hlk] at h2; simp at h2
    · rw [hlk] at h2
      have hin : wirePairs ((k, v) :: ps) ++ 101 :: rest
          = encStr k ++ (wire v ++ (wirePairs ps ++ 101 :: rest)) := by
        simp [wirePairs]
      have hpk : peek_next (encStr k ++ (wire v ++ (wirePairs ps ++ 101 :: rest)))
          = .ok d := by rw [hdt]; rfl
      have hne : ¬ (d = 101) := by omega
      have hdv : deserialize f s' (wire v ++ (wirePairs ps ++ 101 :: rest))
          = .ok (v, wirePairs ps ++ 101 :: rest) :=
        deserialize_wire v s' f _ h2 (by omega)
      have hrec : deserializeStructFields f fs (wirePairs ps ++ 101 :: rest)
          = .ok (ps, rest) :=
        structFields_wire ps fs f rest h4 (by omega)
      rw [hin, deserializeStructFields]
      simp only [ROut.bind_eq, ROut.bind_ok, if_true, if_false, and_true, true_and,
        hpk, hne, hd1, hd2, hlk, hdv, hrec,
        parse_byte_string_encStr (wire v ++ (wirePairs ps ++ 101 :: rest)) h1]
end

theorem from_slice_wire (v : Value) (s : Shape) (fuel : Nat)
    (h : goodVal s v = true) (hf : cost v ≤ fuel) :
    from_slice fuel s (wire v) = .ok v := by
  have hd := deserialize_wire v s fuel [] h hf
  rw [List.append_nil] at hd
  rw [from_slice, hd]

/-! ## Lemmas: the canonical (sorted) dictionary writer -/

theorem byteLe_total : ∀ a b : List Nat, byteLe a b = true ∨ byteLe b a = true
  | [], _ => Or.inl (by rw [byteLe])
  | _ :: _, [] => Or.inr (by rw [byteLe])
  | a :: l₁, b :: l₂ => by
    rcases Nat.lt_trichotomy a b with hab | hab | hab
    · left; rw [byteLe, if_pos hab]
    · subst hab
      rcases byteLe_total l₁ l₂ with ht | ht
      · left
        rw [byteLe, if_neg (by omega), if_neg (by omega)]
        exact ht
      · right
        rw [byteLe, if_neg (by omega), if_neg (by omega)]
        exact ht
    · right; rw [byteLe, if_pos hab]

theorem byteLe_trans :
    ∀ a b c : List Nat, byteLe a b = true → byteLe b c = true → byteLe a c = true
  | [], _, _, _, _ => by rw [byteLe]
  | a :: l₁, [], _, h₁, _ => by rw [byteLe] at h₁; cases h₁
  | _ :: _, _ :: _, [], _, h₂ => by rw [byteLe] at h₂; cases h₂
  | a :: l₁, b :: l₂, c :: l₃, h₁, h₂ => by
    rw [byteLe] at h₁ h₂ ⊢
    by_cases hab : a < b
    · by_cases hbc : b < c
      · rw [if_pos (by omega)]
      · rw [if_neg hbc] at h₂
        by_cases hcb : c < b
        · rw [if_pos hcb] at h₂; cases h₂
        · rw [if_pos (by omega)]
    · rw [if_neg hab] at h₁
      by_cases hba : b < a
      · rw [if_pos hba] at h₁; cases h₁
      · rw [if_neg hba] at h₁
        by_cases hbc : b < c
        · rw [if_pos (by omega)]
        · rw [if_neg hbc] at h₂
          by_cases hcb : c < b
          · rw [if_pos hcb] at h₂; cases h₂
          · rw [if_neg hcb] at h₂
            rw [if_neg (by omega), if_neg (by omega)]
            exact byteLe_trans l₁ l₂ l₃ h₁ h₂

theorem byteLe_antisymm :
    ∀ a b : List Nat, byteLe a b = true → byteLe b a = true → a = b
  | [], [], _, _ => rfl
  | [], _ :: _, _, h₂ => by rw [byteLe] at h₂; cases h₂
  | _ :: _, [], h₁, _ => by rw [byteLe] at h₁; cases h₁
  | a :: l₁, b :: l₂, h₁, h₂ => by
    rw [byteLe] at h₁ h₂
    by_cases hab : a < b
    · rw [if_neg (show ¬ b < a by omega), if_pos hab] at h₂
      cases h₂
    · by_cases hba : b < a
      · rw [if_neg hab, if_pos hba] at h₁
        cases h₁
      · rw [if_neg hab, if_neg hba] at h₁
        rw [if_neg hba, if_neg hab] at h₂
        have hab' : a = b := by omega
        rw [hab', byteLe_antisymm l₁ l₂ h₁ h₂]

instance : IsTotal (List Nat × List Nat) pairLe :=
  ⟨fun a b => byteLe_total (keyTail a.1) (keyTail b.1)⟩

instance : IsTrans (List Nat × List Nat) pairLe :=
  ⟨fun _ _ _ h₁ h₂ => byteLe_trans _ _ _ h₁ h₂⟩

/-- Two sorted pair lists that are permutations of each other and whose
comparator keys are pairwise distinct are equal: the sorted output of a
dictionary level is determined by its contents. -/
theorem sorted_perm_nodupkeys_eq :
    ∀ l₁ l₂ : List (List Nat × List Nat), l₁.Perm l₂ →
      l₁.Sorted pairLe → l₂.Sorted pairLe →
      (l₁.map (fun kv => keyTail kv.1)).Nodup → l₁ = l₂
  | [], l₂, hp, _, _, _ => hp.nil_eq
  | a :: t₁, l₂, hp, hs₁, hs₂, hn => by
    cases l₂ with
    | nil => exact absurd hp.symm.nil_eq (by simp)
    | cons b t₂ =>
      by_cases hab : a = b
      · subst hab
        have ht := sorted_perm_nodupkeys_eq t₁ t₂ hp.cons_inv hs₁.of_cons hs₂.of_cons
          (by simp only [List.map_cons, List.nodup_cons] at hn; exact hn.2)
        rw [ht]
      · have ha2 : a ∈ t₂ := by
          rcases List.mem_cons.mp (hp.subset (List.mem_cons_self a t₁)) with h | h
          · exact absurd h hab
          · exact h
        have hb1 : b ∈ t₁ := by
          rcases List.mem_cons.mp (hp.symm.subset (List.mem_cons_self b t₂)) with h | h
          · exact absurd h.symm hab
          · exact h
        have h₁ : pairLe a b := List.rel_of_sorted_cons hs₁ b hb1
        have h₂ : pairLe b a := List.rel_of_sorted_cons hs₂ a ha2
        have hk : keyTail a.1 = keyTail b.1 := byteLe_antisymm _ _ h₁ h₂
        exfalso
        simp only [List.map_cons, List.nodup_cons] at hn
        exact hn.1 (hk ▸ List.mem_map_of_mem (fun kv => keyTail kv.1) hb1)

theorem sort_and_write_perm_eq (b₁ b₂ : List (List Nat × List Nat))
    (hperm : b₁.Perm b₂)
    (hnodup : (b₁.map (fun kv => keyTail kv.1)).Nodup) :
    sort_and_write_to_parent b₁ = sort_and_write_to_parent b₂ := by
  rw [sort_and_write_to_parent, sort_and_write_to_parent]
  have hp : (List.insertionSort pairLe b₁).Perm (List.insertionSort pairLe b₂) :=
    (List.perm_insertionSort pairLe b₁).trans
      (hperm.trans (List.perm_insertionSort pairLe b₂).symm)
  have hn : ((List.insertionSort pairLe b₁).map (fun kv => keyTail kv.1)).Nodup :=
    (((List.perm_insertionSort pairLe b₁).map (fun kv => keyTail kv.1)).nodup_iff).mpr hnodup
  rw [sorted_perm_nodupkeys_eq _ _ hp
    (List.sorted_insertionSort pairLe b₁) (List.sorted_insertionSort pairLe b₂) hn]

theorem dropWhile_ne_append (pre k : List Nat)
    (h : ∀ x ∈ pre, (x != 58) = true) :
    (pre ++ 58 :: k).dropWhile (fun x => x != 58) = 58 :: k := by
  induction pre with
  | nil => simp [List.dropWhile]
  | cons p ps ih =>
    have hp := h p (List.mem_cons_self p ps)
    simp only [List.cons_append, List.dropWhile, hp]
    exact ih (fun x hx => h x (List.mem_cons_of_mem p hx))

/-- The comparator key of a buffered `encStr` key is the raw key again. -/
theorem keyTail_encStr (k : List Nat) : keyTail (encStr k) = k := by
  rw [keyTail, encStr, dropWhile_ne_append _ _
    (fun x hx => by have := natDigits_mem_digit k.length x hx; simp; omega)]
  rfl

theorem encodeBufs_perm :
    ∀ {p₁ p₂ : List (List Nat × Value)}, p₁.Perm p₂ →
      ∀ {b₁}, encodeBufs p₁ = .ok b₁ →
      ∃ b₂, encodeBufs p₂ = .ok b₂ ∧ b₁.Perm b₂ := by
  intro p₁ p₂ hp
  induction hp with
  | nil => exact fun h => ⟨_, h, List.Perm.refl _⟩
  | cons x hlp ih =>
    rename_i l₁ l₂
    intro b₁ h
    obtain ⟨k, v⟩ := x
    rw [encodeBufs] at h
    cases hv : serialize v with
    | error e => rw [hv] at h; cases h
    | ok bv =>
      rw [hv, except_bind_ok] at h
      cases hr : encodeBufs l₁ with
      | error e => rw [hr] at h; cases h
      | ok r =>
        rw [hr, except_bind_ok] at h
        cases h
        obtain ⟨r₂, hr₂, hpr⟩ := ih hr
        exact ⟨(encStr k, bv) :: r₂,
          by rw [encodeBufs, hv, except_bind_ok, hr₂, except_bind_ok],
          hpr.cons _⟩
  | swap x y l =>
    intro b₁ h
    obtain ⟨k₁, v₁⟩ := x
    obtain ⟨k₂, v₂⟩ := y
    rw [encodeBufs] at h
    cases hv₂ : serialize v₂ with
    | error e => rw [hv₂] at h; cases h
    | ok bv₂ =>
      rw [hv₂, except_bind_ok] at h
      rw [encodeBufs] at h
      cases hv₁ : serialize v₁ with
      | error e => rw [hv₁] at h; cases h
      | ok bv₁ =>
        rw [hv₁, except_bind_ok] at h
        cases hr : encodeBufs l with
        | error e => rw [hr] at h; cases h
        | ok r =>
          rw [hr, except_bind_ok, except_bind_ok] at h
          cases h
          exact ⟨(encStr k₁, bv₁) :: (encStr k₂, bv₂) :: r,
            by rw [encodeBufs, hv₁, except_bind_ok, encodeBufs, hv₂, except_bind_ok,
              hr, except_bind_ok, except_bind_ok],
            List.Perm.swap _ _ _⟩
  | trans h₁ h₂ ih₁ ih₂ =>
    intro b₁ h
    obtain ⟨bm, hbm, hpm⟩ := ih₁ h
    obtain ⟨b₂, hb₂, hp₂⟩ := ih₂ hbm
    exact ⟨b₂, hb₂, hpm.trans hp₂⟩

theorem encodeBufs_keys :
    ∀ {p : List (List Nat × Value)} {b}, encodeBufs p = .ok b →
      b.map (fun kv => keyTail kv.1) = p.map Prod.fst := by
  intro p
  induction p with
  | nil =>
    intro b h
    rw [encodeBufs] at h
    cases h
    rfl
  | cons x ps ih =>
    intro b h
    obtain ⟨k, v⟩ := x
    rw [encodeBufs] at h
    cases hv : serialize v with
    | error e => rw [hv] at h; cases h
    | ok bv =>
      rw [hv, except_bind_ok] at h
      cases hr : encodeBufs ps with
      | error e => rw [hr] at h; cases h
      | ok r =>
        rw [hr, except_bind_ok] at h
        cases h
        simp only [List.map_cons, keyTail_encStr, ih hr]

/-! ## Claim C1 -/

/-- C1 counterexample: the tuple variant `T(1, 2)` of an enum encodes as
the bare list `li1ei2ee` with no variant framing (`serialize_tuple_variant`
in `src/ser.rs` only calls `serialize_seq`, exactly as the crate's own
`tuple_variant` test asserts), and decoding those bytes as the enum fails
with `ExpectedDictionary` (`deserialize_enum` accepts only `'d'` or a
digit as the first byte) — so `decode(encode(v)) = v` fails for tuple
variants and the claim as stated is false. -/
theorem c1_tuple_variant_counterexample :
    serialize (.vEnum [84] (.pTuple [.vU64 1, .vU64 2]))
      = .ok [108, 105, 49, 101, 105, 50, 101, 101] ∧
    from_slice 9 (.sEnum [([84], .vsTuple [.sU64, .sU64])])
      [108, 105, 49, 101, 105, 50, 101, 101] = .err .ExpectedDictionary := by
  constructor
  · simp [serialize, serializeElems, natDigits, except_bind_ok]
  · simp [from_slice, deserialize, peek_next]

/-- C1 (amended): for every supported shape value `v` — primitive scalars
(64-bit signed/unsigned integers and the narrower widths that forward to
them, booleans, chars, strings, byte strings, unit), lists, tuples,
dictionaries, structs, present optional values, and unit, newtype and
struct enum variants, but NOT tuple variants (whose encoding drops the
variant framing and cannot be decoded back, see the counterexample) —
encoding `v` succeeds and decoding the resulting bytes through
`_from_slice` (with sufficient recursion fuel) yields `v` and consumes
the whole input.  `goodVal s v` states that `v` inhabits the target shape
`s` with the Rust-side side conditions (integer ranges, UTF-8 validity,
unicode scalars); the encoder is modelled in the
`sort_dictionary`-disabled configuration, in which dictionaries decode
back in their original entry order. -/
theorem c1_round_trip_amended (v : Value) (s : Shape) (fuel : Nat)
    (h : goodVal s v = true) (hf : cost v ≤ fuel) :
    ∃ bytes, serialize v = .ok bytes ∧ from_slice fuel s bytes = .ok v :=
  ⟨wire v, serialize_eq_wire v s h, from_slice_wire v s fuel h hf⟩

theorem c1_round_trip_amended_witness :
    goodVal (.sOpt .sI64) (.vOptSome (.vI64 55)) = true ∧
    cost (.vOptSome (.vI64 55)) ≤ 2 ∧
    (∃ bytes, serialize (.vOptSome (.vI64 55)) = .ok bytes ∧
      from_slice 2 (.sOpt .sI64) bytes = .ok (.vOptSome (.vI64 55))) := by
  have hg : goodVal (.sOpt .sI64) (.vOptSome (.vI64 55)) = true := by
    simp [goodVal]
  have hc : cost (.vOptSome (.vI64 55)) ≤ 2 := by
    simp [cost]
  exact ⟨hg, hc, c1_round_trip_amended _ _ _ hg hc⟩

/-! ## Claim C2 -/

/-- C2 (code bug): on input `"5:abc"` the byte-string length prefix
declares 5 bytes but only 3 remain; `advance_by` evaluates
`&self.input[0..5]` on a 3-byte slice, which panics (out-of-range slice
index) instead of returning `Err(UnexpectedEof)`.  The claim (and the
spec: "All operations fail with `UnexpectedEof` if insufficient bytes
remain", and the crate's own `fuzz_targets/random.rs`, which requires
decoding arbitrary bytes never to panic) is right and the code is wrong. -/
theorem c2_truncated_byte_string_panics :
    parse_byte_string [53, 58, 97, 98, 99] = .panicked ∧
    from_slice 1 .sBytes [53, 58, 97, 98, 99] = .panicked := by
  have h : parse_byte_string [53, 58, 97, 98, 99] = .panicked := by
    simp [parse_byte_string, advance_to, slice_while, parse_usize, parse_u64,
      parseDigits, parseDigitsAcc, advance_by]
  refine ⟨h, ?_⟩
  simp [from_slice, deserialize, h]

/-! ## Claim C3 -/

/-- C3 counterexample: `serialize_bool` (`src/ser.rs`) encodes `false`
successfully as `i0e`.  There is no `bool-support` configuration switch
anywhere in the code (no `cfg` gate on `serialize_bool`, and the crate
docs in `src/lib.rs` state unconditionally that `bool` maps to `i1e`/`i0e`),
and no refusal — contradicting the claim that the encoder returns an
error unless an opt-in switch is enabled. -/
theorem c3_bool_encodes_counterexample :
    serialize (.vBool false) = .ok [105, 48, 101] := by
  simp [serialize, natDigits]

/-- C3 (amended): the encoder always encodes booleans, unconditionally
and with no configuration switch, via `serialize_u64(v as u64)`: `true`
as the integer `1` (`i1e`) and `false` as the integer `0` (`i0e`). -/
theorem c3_bool_encoding_amended (b : Bool) :
    serialize (.vBool b) = .ok (if b then [105, 49, 101] else [105, 48, 101]) := by
  cases b <;> simp [serialize, natDigits]

/-! ## Claim C4 -/

/-- C4: with canonical dictionary ordering (`sort_dictionary`,
`StructMapSerializer`), encoding two pair sequences that hold the same
key/value content but in different orders produces byte-identical output:
all pairs of the dictionary level are buffered and flushed sorted by the
raw bytes of the key behind its length prefix, before the closing `'e'`. -/
theorem c4_canonical_order_independent
    (p₁ p₂ : List (List Nat × Value)) (out : List Nat)
    (hperm : p₁.Perm p₂) (hnodup : (p₁.map Prod.fst).Nodup)
    (hout : serializeMapSorted p₁ = .ok out) :
    serializeMapSorted p₂ = .ok out := by
  rw [serializeMapSorted] at hout
  cases hb₁ : encodeBufs p₁ with
  | error e => rw [hb₁] at hout; cases hout
  | ok b₁ =>
    rw [hb₁, except_bind_ok] at hout
    cases hout
    obtain ⟨b₂, hb₂, hbp⟩ := encodeBufs_perm hperm hb₁
    rw [serializeMapSorted, hb₂, except_bind_ok]
    have hn : (b₁.map (fun kv => keyTail kv.1)).Nodup := by
      rw [encodeBufs_keys hb₁]
      exact hnodup
    rw [sort_and_write_perm_eq b₁ b₂ hbp hn]

theorem c4_canonical_order_independent_witness :
    ([([98], Value.vU64 2), ([97], Value.vU64 1)] :
        List (List Nat × Value)).Perm [([97], Value.vU64 1), ([98], Value.vU64 2)] ∧
    ((([([98], Value.vU64 2), ([97], Value.vU64 1)] :
        List (List Nat × Value)).map Prod.fst)).Nodup ∧
    serializeMapSorted [([98], .vU64 2), ([97], .vU64 1)]
      = .ok [100, 49, 58, 97, 105, 49, 101, 49, 58, 98, 105, 50, 101, 101] ∧
    serializeMapSorted [([97], .vU64 1), ([98], .vU64 2)]
      = .ok [100, 49, 58, 97, 105, 49, 101, 49, 58, 98, 105, 50, 101, 101] := by
  have hperm : ([([98], Value.vU64 2), ([97], Value.vU64 1)] :
        List (List Nat × Value)).Perm [([97], Value.vU64 1), ([98], Value.vU64 2)] :=
    List.Perm.swap _ _ _
  have hnodup : ((([([98], Value.vU64 2), ([97], Value.vU64 1)] :
        List (List Nat × Value)).map Prod.fst)).Nodup := by
    simp
  have hple : ¬ pairLe ([49, 58, 98], [105, 50, 101]) ([49, 58, 97], [105, 49, 101]) := by
    decide
  have hout : serializeMapSorted [([98], .vU64 2), ([97], .vU64 1)]
      = .ok [100, 49, 58, 97, 105, 49, 101, 49, 58, 98, 105, 50, 101, 101] := by
    simp [serializeMapSorted, encodeBufs, serialize, except_bind_ok, encStr, natDigits,
      sort_and_write_to_parent, List.insertionSort, List.orderedInsert, hple]
  exact ⟨hperm, hnodup, hout,
    c4_canonical_order_independent _ _ _ hperm hnodup hout⟩

/-! ## Claim C5 -/

/-- C5 counterexample: the restricted key serializer rejects byte blobs:
`OnlyStringSerializer::serialize_bytes` (`src/ser/only_string_ser.rs`,
lines 81-83) returns `Err(DictionaryKeyMustBeString)`, so the claim that
"strings and byte blobs succeed" is false for byte blobs. -/
theorem c5_bytes_key_rejected_counterexample :
    only_string_serialize (.kBytes [120]) = .error .DictionaryKeyMustBeString := rfl

/-- C5 (amended): a map key is routed through the restricted key
serializer, which accepts exactly plain strings: `serialize_str` succeeds
(writing the byte string through the parent serializer), and every other
shape — integers, booleans, floats, chars, units, options, sequences,
maps, variants, and ALSO byte blobs (`serialize_bytes`) — fails with
`DictionaryKeyMustBeString`. -/
theorem c5_only_string_keys_amended :
    (∀ s, only_string_serialize (.kStr s) = .ok (encStr s)) ∧
    (∀ c : KeyCall, (∃ out, only_string_serialize c = .ok out) ↔ ∃ s, c = .kStr s) := by
  refine ⟨fun s => rfl, fun c => ⟨?_, ?_⟩⟩
  · intro hex
    obtain ⟨out, hout⟩ := hex
    cases c <;> first
      | exact ⟨_, rfl⟩
      | simp [only_string_serialize] at hout
  · rintro ⟨s, rfl⟩
    exact ⟨_, rfl⟩

theorem c5_only_string_keys_amended_witness :
    only_string_serialize (.kStr [97]) = .ok (encStr [97]) ∧
    ¬ (∃ out, only_string_serialize (.kU64 3) = .ok out) := by
  refine ⟨c5_only_string_keys_amended.1 [97], fun hex => ?_⟩
  obtain ⟨s, hs⟩ := (c5_only_string_keys_amended.2 (.kU64 3)).mp hex
  cases hs

/-! ## Claim C6 -/

/-- C6: `_from_slice` (`src/de.rs`): after the target value has been
decoded, a fully consumed input returns the decoded value, and any
unconsumed remainder is a syntax error reporting the first unconsumed
byte (with no expected byte). -/
theorem c6_from_slice_trailing (fuel : Nat) (s : Shape) (input : List Nat)
    (v : Value) (rest : List Nat)
    (hd : deserialize fuel s input = .ok (v, rest)) :
    (rest = [] → from_slice fuel s input = .ok v) ∧
    (∀ b bs, rest = b :: bs → from_slice fuel s input = .err (.SyntaxError b none)) := by
  constructor
  · intro h0
    subst h0
    rw [from_slice, hd]
  · intro b bs hbs
    subst hbs
    rw [from_slice, hd]

theorem c6_from_slice_trailing_witness :
    from_slice 1 .sI64 [105, 49, 101, 120] = .err (.SyntaxError 120 none) ∧
    from_slice 1 .sI64 [105, 49, 101] = .ok (.vI64 1) := by
  have h1 : deserialize 1 .sI64 [105, 49, 101, 120] = .ok (.vI64 1, [120]) := by
    simp [deserialize, advance, advance_to_e, advance_to, slice_while, parse_i64,
      parseDigits, parseDigitsAcc]
  have h2 : deserialize 1 .sI64 [105, 49, 101] = .ok (.vI64 1, []) := by
    simp [deserialize, advance, advance_to_e, advance_to, slice_while, parse_i64,
      parseDigits, parseDigitsAcc]
  exact ⟨(c6_from_slice_trailing 1 .sI64 _ _ _ h1).2 120 [] rfl,
    (c6_from_slice_trailing 1 .sI64 _ _ _ h2).1 rfl⟩

/-! ## Claim C7 -/

/-- C7: `deserialize_option` treats an empty remaining buffer as absent,
consuming nothing, and with at least one byte remaining decodes the
present value from the buffer (there is no explicit none marker on the
wire).  The concrete scenarios of the claim are the witness:
decoding an optional 64-bit integer (narrower integer targets forward to
the same reader) from `""` is absent and from `"i55e"` is present 55. -/
theorem c7_deserialize_option (s : Shape) (fuel : Nat) :
    (deserialize (fuel + 1) (.sOpt s) [] = .ok (.vNone, [])) ∧
    (∀ (input : List Nat) (v : Value) (rest : List Nat), input ≠ [] →
      deserialize fuel s input = .ok (v, rest) →
      deserialize (fuel + 1) (.sOpt s) input = .ok (.vOptSome v, rest)) := by
  constructor
  · rw [deserialize]
  · intro input v rest hne hd
    cases input with
    | nil => exact absurd rfl hne
    | cons b bs =>
      rw [deserialize]
      · simp only [ROut.bind_eq, ROut.bind_ok, hd]
      · simp

theorem c7_deserialize_option_witness :
    from_slice 2 (.sOpt .sI64) [] = .ok .vNone ∧
    from_slice 2 (.sOpt .sI64) [105, 53, 53, 101] = .ok (.vOptSome (.vI64 55)) := by
  have h1 : deserialize 2 (.sOpt .sI64) [] = .ok (.vNone, []) :=
    (c7_deserialize_option .sI64 1).1
  have h2 : deserialize 1 .sI64 [105, 53, 53, 101] = .ok (.vI64 55, []) := by
    simp [deserialize, advance, advance_to_e, advance_to, slice_while, parse_i64,
      parseDigits, parseDigitsAcc]
  have h3 : deserialize 2 (.sOpt .sI64) [105, 53, 53, 101]
      = .ok (.vOptSome (.vI64 55), []) :=
    (c7_deserialize_option .sI64 1).2 [105, 53, 53, 101] (.vI64 55) [] (by simp) h2
  constructor
  · rw [from_slice, h1]
  · rw [from_slice, h3]

/-! ## Claim C8 -/

/-- C8: `deserialize_enum` (`src/de.rs`): an input starting with an ASCII
digit is read as a bare byte string naming a payload-less (unit) variant;
an input starting with `'d'` decodes the dictionary-framed variant and
the byte immediately after its single payload must be `'e'`, otherwise
the decode fails with `ExpectedEndOfDictionary`; any other first byte
fails with `ExpectedDictionary`. -/
theorem c8_deserialize_enum_dispatch :
    (∀ (variants : List (List Nat × VShape)) (name rest : List Nat) (fuel : Nat),
      isValidUtf8 name = true → name.length < 2 ^ 64 →
      variants.lookup name = some .vsUnit →
      deserialize (fuel + 1) (.sEnum variants) (encStr name ++ rest)
        = .ok (.vEnum name .pUnit, rest)) ∧
    (∀ (variants : List (List Nat × VShape)) (fuel : Nat) (input : List Nat)
        (v : Value) (b : Nat) (bs : List Nat),
      deserializeVariantInner fuel variants input = .ok (v, b :: bs) → b ≠ 101 →
      deserialize (fuel + 1) (.sEnum variants) (100 :: input)
        = .err .ExpectedEndOfDictionary) ∧
    (∀ (variants : List (List Nat × VShape)) (fuel : Nat) (input : List Nat)
        (v : Value) (bs : List Nat),
      deserializeVariantInner fuel variants input = .ok (v, 101 :: bs) →
      deserialize (fuel + 1) (.sEnum variants) (100 :: input) = .ok (v, bs)) ∧
    (∀ (variants : List (List Nat × VShape)) (fuel : Nat) (b : Nat) (input : List Nat),
      b ≠ 100 → ¬ (48 ≤ b ∧ b ≤ 57) →
      deserialize (fuel + 1) (.sEnum variants) (b :: input)
        = .err .ExpectedDictionary) := by
  refine ⟨?_, ?_, ?_, ?_⟩
  · intro variants name rest fuel hutf hlen hlk
    obtain ⟨d, t, hdt, hd1, hd2⟩ := encStr_head name
    have hpk : peek_next (encStr name ++ rest) = .ok d := by rw [hdt]; rfl
    have hne : ¬ (d = 100) := by omega
    rw [deserialize]
    simp only [ROut.bind_eq, ROut.bind_ok, if_true, if_false, and_true, true_and,
      hpk, hne, hd1, hd2, hutf, hlk, parse_byte_string_encStr rest hlen]
  · intro variants fuel input v b bs hinner hb
    have hpk : peek_next (100 :: input) = .ok 100 := rfl
    rw [deserialize]
    simp only [ROut.bind_eq, ROut.bind_ok, if_true, if_false, hpk, hinner, advance, hb]
  · intro variants fuel input v bs hinner
    have hpk : peek_next (100 :: input) = .ok 100 := rfl
    rw [deserialize]
    simp only [ROut.bind_eq, ROut.bind_ok, if_true, if_false, hpk, hinner, advance]
  · intro variants fuel b input hb hd
    have hpk : peek_next (b :: input) = .ok b := rfl
    rw [deserialize]
    simp only [ROut.bind_eq, ROut.bind_ok, if_true, if_false, hpk, hb, hd]

theorem c8_deserialize_enum_dispatch_witness :
    deserialize 1 (.sEnum [([65], .vsUnit)]) [49, 58, 65]
      = .ok (.vEnum [65] .pUnit, []) ∧
    deserialize 3 (.sEnum [([78], .vsNewtype .sU64)])
      [100, 49, 58, 78, 105, 49, 101, 120] = .err .ExpectedEndOfDictionary ∧
    deserialize 3 (.sEnum [([78], .vsNewtype .sU64)])
      [100, 49, 58, 78, 105, 49, 101, 101] = .ok (.vEnum [78] (.pNewtype (.vU64 1)), []) ∧
    deserialize 1 (.sEnum [([65], .vsUnit)]) [108, 101] = .err .ExpectedDictionary := by
  have hinner1 : deserializeVariantInner 2 [([78], .vsNewtype .sU64)]
      [49, 58, 78, 105, 49, 101, 120]
      = .ok (.vEnum [78] (.pNewtype (.vU64 1)), [120]) := by
    simp [deserializeVariantInner, deserialize, peek_next, advance, parse_byte_string,
      advance_to, slice_while, parse_usize, parse_u64, parseDigits, parseDigitsAcc,
      advance_by, advance_to_e, List.lookup]
  have hinner2 : deserializeVariantInner 2 [([78], .vsNewtype .sU64)]
      [49, 58, 78, 105, 49, 101, 101]
      = .ok (.vEnum [78] (.pNewtype (.vU64 1)), [101]) := by
    simp [deserializeVariantInner, deserialize, peek_next, advance, parse_byte_string,
      advance_to, slice_while, parse_usize, parse_u64, parseDigits, parseDigitsAcc,
      advance_by, advance_to_e, List.lookup]
  have h1 : deserialize 1 (.sEnum [([65], .vsUnit)]) (encStr [65] ++ [])
      = .ok (.vEnum [65] .pUnit, []) :=
    c8_deserialize_enum_dispatch.1 [([65], .vsUnit)] [65] [] 0 (by simp [isValidUtf8, utf8Chars])
      (by simp) (by simp [List.lookup])
  refine ⟨?_, ?_, ?_, ?_⟩
  · have he : encStr [65] ++ [] = [49, 58, 65] := by simp [encStr, natDigits]
    rw [← he]
    exact h1
  · exact c8_deserialize_enum_dispatch.2.1 [([78], .vsNewtype .sU64)] 2
      [49, 58, 78, 105, 49, 101, 120] _ 120 [] hinner1 (by omega)
  · exact c8_deserialize_enum_dispatch.2.2.1 [([78], .vsNewtype .sU64)] 2
      [49, 58, 78, 105, 49, 101, 101] _ [] hinner2
  · exact c8_deserialize_enum_dispatch.2.2.2 [([65], .vsUnit)] 0 108 [101]
      (by omega) (by omega)

/-! ## Claim C9 -/

/-- C9 counterexample: on the decode side the floating-point failure is
NOT a `FloatingPointNotSupported` kind: `deserialize_f32` returns the
plain `Message` kind `"\x60f32\x60 is not supported"` — indeed the
decode-side error type `DeError` (`src/error.rs`) has no
`FloatingPointNotSupported` constructor at all (only the encode-side
`SerError` does). -/
theorem c9_float_decode_error_counterexample :
    deserialize 1 .sF32 [105, 49, 101] = .err (.Message "`f32` is not supported") := by
  simp [deserialize]

/-- C9 (amended): floating-point values are always rejected on both
sides: the encoder fails with the `SerError::FloatingPointNotSupported`
kind, while the decoder fails with the `DeError::Message` kind carrying
the text "\x60f32\x60 is not supported" / "\x60f64\x60 is not supported"
(the decode-side error enum has no `FloatingPointNotSupported` kind). -/
theorem c9_float_rejection_amended :
    serialize .vF32 = .error .FloatingPointNotSupported ∧
    serialize .vF64 = .error .FloatingPointNotSupported ∧
    (∀ fuel input, deserialize (fuel + 1) .sF32 input
      = .err (.Message "`f32` is not supported")) ∧
    (∀ fuel input, deserialize (fuel + 1) .sF64 input
      = .err (.Message "`f64` is not supported")) := by
  refine ⟨by simp [serialize], by simp [serialize], ?_, ?_⟩ <;>
    intro fuel input <;> simp [deserialize]

/-! ## Claim C10 -/

theorem slice_while_spec :
    ∀ (input : List Nat) (e : Nat) (p : List Nat), slice_while input e = .ok p →
      input = p ++ e :: input.drop (p.length + 1) ∧ ∀ x ∈ p, x ≠ e
  | [], _, p, h => by rw [slice_while] at h; cases h
  | b :: bs, e, p, h => by
    rw [slice_while] at h
    by_cases hbe : b = e
    · rw [if_pos hbe] at h
      cases h
      subst hbe
      refine ⟨by simp, ?_⟩
      intro x hx
      simp at hx
    · rw [if_neg hbe] at h
      cases hsw : slice_while bs e with
      | ok p' =>
        rw [hsw, ROut.bind_ok] at h
        cases h
        obtain ⟨ih1, ih2⟩ := slice_while_spec bs e p' hsw
        constructor
        · conv =>
            lhs
            rw [ih1]
          simp
        · intro x hx
          rcases List.mem_cons.mp hx with hx | hx
          · exact hx ▸ hbe
          · exact ih2 x hx
      | err e' => rw [hsw] at h; cases h
      | panicked => rw [hsw] at h; cases h
      | outOfFuel => rw [hsw] at h; cases h

/-- C10 counterexample: decoding a boolean from the EMPTY input does not
fail with `ExpectedInteger` (or any `Err`): `deserialize_bool` calls
`advance`, which on empty input panics re-slicing `&input[1..]` before
its stored `UnexpectedEof` is returned.  The claim quantified over every
input, and the empty input does not start with `'i'`, so the claim as
stated is false. -/
theorem c10_bool_empty_input_counterexample :
    deserialize 1 .sBool [] = .panicked := by
  simp [deserialize, advance]

/-- C10 (amended): for every NONEMPTY input, decoding a boolean succeeds
exactly when the input starts with the token `i0e` (false) or `i1e`
(true); any other payload between `i` and the first `e` fails (with the
message error or `UnexpectedEof`), and a nonempty input not starting with
`'i'` fails with `ExpectedInteger`.  (On the empty input the code
panics: see the counterexample.) -/
theorem c10_deserialize_bool_amended (fuel : Nat) (b : Nat) (input : List Nat) :
    (∀ rest, input = 48 :: 101 :: rest → b = 105 →
      deserialize (fuel + 1) .sBool (b :: input) = .ok (.vBool false, rest)) ∧
    (∀ rest, input = 49 :: 101 :: rest → b = 105 →
      deserialize (fuel + 1) .sBool (b :: input) = .ok (.vBool true, rest)) ∧
    (b ≠ 105 → deserialize (fuel + 1) .sBool (b :: input) = .err .ExpectedInteger) ∧
    ((∃ v rest, deserialize (fuel + 1) .sBool (b :: input) = .ok (v, rest)) ↔
      (b :: input).take 3 = [105, 48, 101] ∨ (b :: input).take 3 = [105, 49, 101]) := by
  have hfalse : ∀ rest, input = 48 :: 101 :: rest → b = 105 →
      deserialize (fuel + 1) .sBool (b :: input) = .ok (.vBool false, rest) := by
    intro rest h1 h2
    subst h1
    subst h2
    have hae : advance_to_e (48 :: 101 :: rest) = .ok ([48], rest) :=
      @advance_to_e_append [48] rest (by intro x hx; simp at hx; omega)
    rw [deserialize]
    simp only [ROut.bind_eq, ROut.bind_ok, advance, if_true, if_false, or_true,
      true_or, hae]
    rfl
  have htrue : ∀ rest, input = 49 :: 101 :: rest → b = 105 →
      deserialize (fuel + 1) .sBool (b :: input) = .ok (.vBool true, rest) := by
    intro rest h1 h2
    subst h1
    subst h2
    have hae : advance_to_e (49 :: 101 :: rest) = .ok ([49], rest) :=
      @advance_to_e_append [49] rest (by intro x hx; simp at hx; omega)
    rw [deserialize]
    simp only [ROut.bind_eq, ROut.bind_ok, advance, if_true, if_false, or_true,
      true_or, hae]
    rfl
  refine ⟨hfalse, htrue, ?_, ?_, ?_⟩
  · intro hb
    rw [deserialize]
    simp only [ROut.bind_eq, ROut.bind_ok, advance, if_true, if_false, hb]
  · rintro ⟨v, rest, hok⟩
    rw [deserialize] at hok
    simp only [ROut.bind_eq, ROut.bind_ok, advance] at hok
    by_cases hb : b = 105
    · subst hb
      rw [if_pos rfl] at hok
      rw [advance_to_e, advance_to] at hok
      cases hsw : slice_while input 101 with
      | ok p =>
        rw [hsw, ROut.bind_ok, ROut.bind_ok] at hok
        obtain ⟨hsp, hsne⟩ := slice_while_spec input 101 p hsw
        cases p with
        | nil => simp at hok
        | cons d p' =>
          cases p' with
          | cons d2 p'' => simp at hok
          | nil =>
            by_cases hd : d = 48 ∨ d = 49
            · rw [hsp]
              rcases hd with hd | hd <;> subst hd
              · left; rfl
              · right; rfl
            · simp [hd] at hok
      | err e => rw [hsw] at hok; cases hok
      | panicked => rw [hsw] at hok; cases hok
      | outOfFuel => rw [hsw] at hok; cases hok
    · rw [if_neg hb] at hok
      cases hok
  · intro hdig
    have hstruct : b = 105 ∧ (input = 48 :: 101 :: input.drop 2
        ∨ input = 49 :: 101 :: input.drop 2) := by
      rcases hdig with hd | hd <;>
      · rw [List.take_succ_cons] at hd
        have hb : b = 105 := by
          have := List.cons.inj hd
          exact this.1
        have ht := (List.cons.inj hd).2
        cases input with
        | nil => simp at ht
        | cons c cs =>
          rw [List.take_succ_cons] at ht
          have hc := (List.cons.inj ht).1
          have ht2 := (List.cons.inj ht).2
          cases cs with
          | nil => simp at ht2
          | cons d ds =>
            rw [List.take_succ_cons] at ht2
            have hd' := (List.cons.inj ht2).1
            subst hb
            subst hc
            subst hd'
            first
              | exact ⟨rfl, Or.inl rfl⟩
              | exact ⟨rfl, Or.inr rfl⟩
    obtain ⟨hb, hin | hin⟩ := hstruct
    · exact ⟨.vBool false, input.drop 2, hfalse (input.drop 2) hin hb⟩
    · exact ⟨.vBool true, input.drop 2, htrue (input.drop 2) hin hb⟩

theorem c10_deserialize_bool_amended_witness :
    deserialize 1 .sBool [105, 48, 101, 55] = .ok (.vBool false, [55]) ∧
    deserialize 1 .sBool [100, 101] = .err .ExpectedInteger ∧
    ((∃ v rest, deserialize 1 .sBool [105, 49, 101] = .ok (v, rest)) ↔
      ([105, 49, 101] : List Nat).take 3 = [105, 48, 101] ∨
      ([105, 49, 101] : List Nat).take 3 = [105, 49, 101]) := by
  refine ⟨?_, ?_, ?_⟩
  · exact (c10_deserialize_bool_amended 0 105 [48, 101, 55]).1 [55] rfl rfl
  · exact (c10_deserialize_bool_amended 0 100 [101]).2.2.1 (by omega)
  · exact (c10_deserialize_bool_amended 0 105 [49, 101]).2.2.2

end SerdeBencoded
